import Mathlib

/-!
A shallow embedding of the macro expansion engine of the lacc C preprocessor
(`macro.c`).  Tokens, macro definitions and the macro table are modelled as
plain Lean data; the mutually recursive rewriter (`expand`), substituter
(`expand_macro`) and argument pre-expansion loop are modelled as a single
fuel-indexed interpreter over a small job type, so that every definition is
executable and concrete runs reduce by `rfl`/`decide`.  Machine integers that
can wrap (the `unsigned` cursors of `expand_paste_operators`) are modelled as
`Nat` with explicit `% 2^32`.  Fatal diagnostics (`error(...); exit(1)`) and
failing `assert`s are modelled as `Except` errors; running out of fuel is the
distinguished error `outOfFuel`, so termination statements are statements
that `outOfFuel` is not returned.
-/

namespace Lacc

/-- Token kinds (`enum token_type` of the external tokenizer, which is not part
of this translation unit).  Modelled from the spec: the kinds named there,
plus `ch c` for single-character punctuators encoded as their byte value
(`'#' = 35`, `'(' = 40`, `')' = 41`, `',' = 44`). -/
inductive TokType where
  | IDENTIFIER
  | NUMBER
  | STRING_T
  | PREP_NUMBER
  | NEWLINE
  | ENDT
  | PARAM
  | EMPTY_ARG
  | TOKEN_PASTE
  | ch (c : Nat)
deriving DecidableEq

/-- Numeric type of a `NUMBER` token.  Modelled from the spec: the number
model collaborator supplies `type_equal` and a signed/unsigned discriminator;
we keep exactly those two observables. -/
structure NumTy where
  unsigned : Bool
  rank : Nat
deriving DecidableEq

/-- `struct token`: a kind tag, a leading-whitespace count, and a payload.
The C payload is a union over the kind; it is modelled as a product, with the
unused components kept at their defaults. -/
structure Token where
  tok : TokType
  lws : Nat := 0
  str : String := ""
  numTy : NumTy := ⟨false, 0⟩
  numVal : Int := 0
deriving DecidableEq

/-- A zeroed token slot.  Modelled from the spec: `array_get` (missing
`array.h`) is an unchecked read, and recycled arrays are zeroed, so a read one
past the end of a token array yields a token whose kind is none of the
punctuators — in particular not `'('` and not `IDENTIFIER`. -/
def zeroTok : Token := { tok := .ENDT }

inductive MacroType where
  | OBJECT_LIKE
  | FUNCTION_LIKE
deriving DecidableEq

/-- `struct macro` (from the missing `macro.h`, with exactly the fields
`macro.c` uses): name, object/function kind, arity, replacement list, and the
three cached flags computed by `define`. -/
structure Macro where
  name : String
  mtype : MacroType
  params : Nat
  replacement : List Token
  stringify : Bool := false
  is__file__ : Bool := false
  is__line__ : Bool := false
deriving DecidableEq

/-- The macro hash table, modelled as an association list keyed by `name`
(bucket layout and iteration order of the C hash table are unobservable
here). -/
abbrev Table := List Macro

/-- `type_equal` of the number model collaborator.  Modelled from the spec:
numeric types are value-typed and compared for equality. -/
def type_equal (a b : NumTy) : Bool := a == b

/-- `tok_cmp` (macro.c lines 561-578); `true` means the two tokens differ
(the C function returns non-zero). -/
def tok_cmp (a b : Token) : Bool :=
  if a.tok != b.tok then true
  else if a.tok == .PARAM then a.numVal != b.numVal
  else if a.tok == .NUMBER then
    if !type_equal a.numTy b.numTy then true
    else a.numVal != b.numVal
  else a.str != b.str

/-- `macrocmp` (macro.c lines 61-82); `true` means the two definitions differ. -/
def macrocmp (a b : Macro) : Bool :=
  if a.mtype != b.mtype || a.params != b.params then true
  else if a.name != b.name then true
  else if a.replacement.length != b.replacement.length then true
  else (List.zip a.replacement b.replacement).any fun p => tok_cmp p.1 p.2

/-- `hash_lookup` on the macro table: find the entry with the given name. -/
def tableLookup (tbl : Table) (name : String) : Option Lacc.Macro :=
  tbl.find? fun m => m.name == name

/-- In-place mutation of the stored entry with the given name (the C code
mutates the macro owned by the hash table). -/
def tableUpdate : Table → String → Lacc.Macro → Table
  | [], _, _ => []
  | m :: rest, name, m' =>
    if m.name == name then m' :: rest else m :: tableUpdate rest name m'

/-- `has_stringify_replacement` (macro.c lines 182-198): the replacement list
contains `'#'` immediately followed by `PARAM` (the scan stops at `len - 1`,
which the two-element pattern match reproduces). -/
def has_stringify_replacement : List Token → Bool
  | t :: r :: rest =>
    (t.tok == .ch 35 && r.tok == .PARAM) || has_stringify_replacement (r :: rest)
  | _ => false

/-- The flag recomputation `define` performs on the stored entry
(macro.c lines 215-217). -/
def setFlags (m : Lacc.Macro) : Lacc.Macro :=
  { m with
    stringify := has_stringify_replacement m.replacement
    is__file__ := m.name == "__FILE__"
    is__line__ := m.name == "__LINE__" }

/-- Errors: each fatal `error(...); exit(1)` site of macro.c, plus
`assertFail` for a failing `assert`, `oobRead` for an access past the end of
a buffer the C code would perform, and `outOfFuel` marking interpreter fuel
exhaustion (never an actual behaviour of the program). -/
inductive PpErr where
  | redef
  | pasteBegin
  | pasteEnd
  | invalidPaste
  | unexpectedEol
  | negDepth
  | skipMismatch
  | assertFail
  | oobRead
  | outOfFuel
deriving DecidableEq

/-- `define` (macro.c lines 200-222): insert the macro, returning the stored
entry if the name already exists; a differing redefinition is fatal, an equal
one recomputes the cached flags on the stored entry. -/
def define (tbl : Table) (m : Lacc.Macro) : Except PpErr Table :=
  match tableLookup tbl m.name with
  | some old =>
    if macrocmp old m then .error .redef
    else .ok (tableUpdate tbl m.name (setFlags old))
  | none =>
    if macrocmp m m then .error .redef
    else .ok (tbl ++ [setFlags m])

/-- `undef` (macro.c lines 224-228). -/
def undef : Table → String → Table
  | [], _ => []
  | m :: rest, name => if m.name == name then rest else m :: undef rest name

/-- The lexer-state collaborators (`current_file_path`, `current_file_line`)
and the external tokenizer.  `tokenize s` returns the first token of `s` and
the number of characters consumed (`endptr - buf`). -/
structure Env where
  filePath : String
  fileLine : Int
  tokenize : String → Token × Nat

/-- `get__line__token` (macro.c lines 143-152): a `PREP_NUMBER` token whose
payload is the decimal rendering (`snprintf ("%d")`) of the current line.
`basic_token[PREP_NUMBER]` (missing tokenize.c) is modelled from the spec as
having no leading whitespace. -/
def get__line__token (env : Env) : Token :=
  { tok := .PREP_NUMBER, str := toString env.fileLine }

/-- `get__file__token` (macro.c lines 154-159): `{STRING}` with the current
file path as payload. -/
def get__file__token (env : Env) : Token :=
  { tok := .STRING_T, str := env.filePath }

/-- `definition` (macro.c lines 165-180): look the name up; on a hit flagged
`is__file__` (resp. `is__line__`) overwrite slot 0 of the stored replacement
with the current file (resp. line) token.  Returns the macro handed to the
caller together with the updated table (the C code mutates the stored entry
in place). -/
def definition (env : Env) (tbl : Table) (name : String) :
    Option Lacc.Macro × Table :=
  match tableLookup tbl name with
  | none => (none, tbl)
  | some m =>
    if m.is__file__ then
      let m' := { m with replacement := m.replacement.set 0 (get__file__token env) }
      (some m', tableUpdate tbl name m')
    else if m.is__line__ then
      let m' := { m with replacement := m.replacement.set 0 (get__line__token env) }
      (some m', tableUpdate tbl name m')
    else (some m, tbl)

/-- `is_macro_expanded` (macro.c lines 29-42): linear search of the disabling
stack for the macro's name. -/
def is_macro_expanded (stack : List String) (m : Lacc.Macro) : Bool :=
  stack.any fun name => name == m.name

/-- `tokstr` of the external tokenizer (missing tokenize.c).  Modelled from
the spec: the textual spelling of a token — the string payload for
string-carrying kinds, the decimal rendering for `NUMBER`, the operator
spelling for `##`, the byte for single-character punctuators. -/
def tokstr (t : Token) : String :=
  match t.tok with
  | .ch c => String.singleton (Char.ofNat c)
  | .TOKEN_PASTE => "##"
  | .NEWLINE => "\n"
  | .NUMBER => toString t.numVal
  | _ => t.str

/-- `paste` (macro.c lines 264-292): if either operand is `EMPTY_ARG` return
the other (both empty violates the `assert`); otherwise retokenize the
concatenated spellings, requiring the whole buffer to be consumed, and give
the result the left operand's leading whitespace. -/
def paste (env : Env) (l r : Token) : Except PpErr Token :=
  if l.tok == .EMPTY_ARG && r.tok == .EMPTY_ARG then .error .assertFail
  else if l.tok == .EMPTY_ARG then .ok r
  else if r.tok == .EMPTY_ARG then .ok l
  else
    let s := tokstr l ++ tokstr r
    let res := env.tokenize s
    if res.2 != s.length then .error .invalidPaste
    else .ok { res.1 with lws := l.lws }

/-- `2^32`: the modulus of the `unsigned` cursors in
`expand_paste_operators`. -/
def U32 : Nat := 4294967296

/-- The `for` loop of `expand_paste_operators` (macro.c lines 315-339) plus the
final truncation `list->length = i + 1` (line 341).  `i` and `j` are C
`unsigned` variables: increments and the decrement at line 326 are taken
mod `2^32`.  The loop runs at most `list` many iterations (`j` grows by at
least one per step and the list length is invariant), so the fuel passed by
the wrapper is never exhausted; the iteration-count fuel only makes the
recursion structural. -/
def pasteLoop (env : Env) : Nat → List Token → Nat → Nat → Except PpErr (List Token)
  | 0, _, _, _ => .error .outOfFuel
  | Nat.succ td, list, i, j =>
    if j < list.length then
      if i < list.length then
        let t := list.getD j zeroTok
        if t.tok == .TOKEN_PASTE then
          let l := list.getD i zeroTok
          let r := list.getD (j + 1) zeroTok
          if l.tok == .EMPTY_ARG && r.tok == .EMPTY_ARG then
            pasteLoop env td list ((i + (U32 - 1)) % U32) (j + 2)
          else
            match paste env l r with
            | .error e => .error e
            | .ok p => pasteLoop env td (list.set i p) i (j + 2)
        else if t.tok != .EMPTY_ARG then
          if i < j - 1 then
            pasteLoop env td (list.set ((i + 1) % U32) t) ((i + 1) % U32) (j + 1)
          else
            pasteLoop env td list ((i + 1) % U32) (j + 1)
        else pasteLoop env td list i (j + 1)
      else .error .assertFail
    else .ok (list.take ((i + 1) % U32))

/-- `expand_paste_operators` (macro.c lines 300-343): a leading `##` is fatal
for any non-empty list; only for lists of more than two tokens is a trailing
`##` checked (fatal) and the paste loop run. -/
def expand_paste_operators (env : Env) (list : List Token) : Except PpErr (List Token) :=
  let len := list.length
  if len != 0 && (list.getD 0 zeroTok).tok == .TOKEN_PASTE then .error .pasteBegin
  else if len > 2 then
    if (list.getD (len - 1) zeroTok).tok == .TOKEN_PASTE then .error .pasteEnd
    else pasteLoop env (len + 1) list 0 1
  else .ok list

/-- The buffer-building loop of `stringify` (macro.c lines 613-639): `END` is
an assertion failure, a `NEWLINE` is only permitted as the final token and
stops the iteration, and a single space is inserted before a token with
leading whitespace except at the start. -/
def strLoop (first : Bool) (acc : String) : List Token → Except PpErr String
  | [] => .ok acc
  | t :: rest =>
    if t.tok == .ENDT then .error .assertFail
    else if t.tok == .NEWLINE then
      if rest.isEmpty then .ok acc else .error .assertFail
    else
      strLoop false
        (acc ++ (if t.lws > 0 && !first then (" ") else ("")) ++ tokstr t) rest

/-- `stringify` (macro.c lines 586-648): empty or `[EMPTY_ARG]` gives the
empty string, a single token gives its spelling, otherwise the join built by
`strLoop`.  The result is a `STRING` token without leading whitespace. -/
def stringify (list : List Token) : Except PpErr Token :=
  if list.length == 0 || (list.getD 0 zeroTok).tok == .EMPTY_ARG then
    .ok { tok := .STRING_T, str := "" }
  else if list.length == 1 then
    .ok { tok := .STRING_T, str := tokstr (list.getD 0 zeroTok) }
  else
    match strLoop true ("") list with
    | .error e => .error e
    | .ok s => .ok { tok := .STRING_T, str := s }

/-- The stringify snapshot loop of `expand_macro` (macro.c lines 355-360):
one string per argument, taken before any pre-expansion. -/
def stringifyAll : List (List Token) → Except PpErr (List Token)
  | [] => .ok []
  | a :: rest =>
    match stringify a with
    | .error e => .error e
    | .ok t =>
      match stringifyAll rest with
      | .error e => .error e
      | .ok ts => .ok (t :: ts)

/-- `skip` (macro.c lines 402-414): the next token must be the expected one;
otherwise fatal.  An empty stream means the C code would read past the end of
the buffer. -/
def skip : List Token → TokType → Except PpErr (List Token)
  | [], _ => .error .oobRead
  | t :: rest, want => if t.tok != want then .error .skipMismatch else .ok rest

/-- `read_arg` (macro.c lines 420-452): collect tokens until a `,` or `)` at
nesting depth zero; `NEWLINE` is fatal; `(`/`)` adjust the depth, a negative
depth is fatal; an empty argument becomes the single `EMPTY_ARG` sentinel.
Returns the argument and the unconsumed remainder (`endptr`). -/
def read_arg : List Token → Int → List Token → Except PpErr (List Token × List Token)
  | [], _, _ => .error .oobRead
  | t :: rest, nesting, acc =>
    if nesting != 0 || (t.tok != .ch 44 && t.tok != .ch 41) then
      if t.tok == .NEWLINE then .error .unexpectedEol
      else if t.tok == .ch 40 then read_arg rest (nesting + 1) (acc ++ [t])
      else if t.tok == .ch 41 then
        if nesting - 1 < 0 then .error .negDepth
        else read_arg rest (nesting - 1) (acc ++ [t])
      else read_arg rest nesting (acc ++ [t])
    else
      .ok (if acc.isEmpty then [{ tok := .EMPTY_ARG }] else acc, t :: rest)

/-- The argument loop of `read_args` (macro.c lines 465-470): `params`
arguments separated by `,`. -/
def readArgsLoop : Nat → List Token → Except PpErr (List (List Token) × List Token)
  | 0, s => .ok ([], s)
  | Nat.succ n, s =>
    match read_arg s 0 [] with
    | .error e => .error e
    | .ok (arg, s1) =>
      if n == 0 then .ok ([arg], s1)
      else
        match skip s1 (.ch 44) with
        | .error e => .error e
        | .ok s2 =>
          match readArgsLoop n s2 with
          | .error e => .error e
          | .ok (rest, s3) => .ok (arg :: rest, s3)

/-- `read_args` (macro.c lines 454-476): for a function-like macro skip `(`,
read the arguments, skip `)`; for an object-like macro read nothing and
return the stream unchanged (`args` is NULL in C, the empty list here). -/
def read_args (d : Lacc.Macro) (s : List Token) :
    Except PpErr (List (List Token) × List Token) :=
  if d.mtype == .FUNCTION_LIKE then
    match skip s (.ch 40) with
    | .error e => .error e
    | .ok s0 =>
      match readArgsLoop d.params s0 with
      | .error e => .error e
      | .ok (args, s1) =>
        match skip s1 (.ch 41) with
        | .error e => .error e
        | .ok s2 => .ok (args, s2)
  else .ok ([], s)

/-- The substitution walk of `expand_macro` (macro.c lines 369-388): a
`PARAM` token is replaced by the (pre-expanded) argument it indexes
(`assert(param < def->params)`); a `'#'` immediately followed by `PARAM`
appends the snapshot string for that parameter (`assert`ing the index is in
range and the snapshot is a `STRING`); every other token is appended
verbatim.  An index that passes the signed `assert` but is negative would be
an out-of-bounds access of `args` in C, returned as `oobRead`. -/
def substLoop (params : Nat) (args : List (List Token)) (strings : List Token) :
    List Token → Except PpErr (List Token)
  | [] => .ok []
  | t :: rest =>
    if t.tok == .PARAM then
      if !(t.numVal < (params : Int)) then .error .assertFail
      else
        match args.get? t.numVal.toNat with
        | none => .error .oobRead
        | some a =>
          match substLoop params args strings rest with
          | .error e => .error e
          | .ok tail => .ok (a ++ tail)
    else
      match rest with
      | r :: rest2 =>
        if t.tok == .ch 35 && r.tok == .PARAM then
          if !(r.numVal < (strings.length : Int)) then .error .assertFail
          else
            match strings.get? r.numVal.toNat with
            | none => .error .oobRead
            | some s =>
              if s.tok != .STRING_T then .error .assertFail
              else
                match substLoop params args strings rest2 with
                | .error e => .error e
                | .ok tail => .ok (s :: tail)
        else
          match substLoop params args strings (r :: rest2) with
          | .error e => .error e
          | .ok tail => .ok (t :: tail)
      | [] => .ok [t]

/-- The splice-seam whitespace fix of `expand` (macro.c lines 543-545): if the
expansion is non-empty, its first token takes the leading whitespace of the
invocation. -/
def lws_fix (w : Nat) : List Token → List Token
  | [] => []
  | e0 :: es => { e0 with lws := w } :: es

/-- The per-argument whitespace fix of `expand_macro` (macro.c lines
363-365): force `leading_whitespace >= 1` on `args[i].data[0]`.  When the
pre-expanded argument is empty the C code reads and writes index 0 of a
length-0 array (out of bounds of the logical array; the write lands in
recycled pool storage and has no observable effect), modelled as a no-op. -/
def arg_ws_fix : List Token → List Token
  | [] => []
  | t0 :: ts => if t0.lws == 0 then { t0 with lws := 1 } :: ts else t0 :: ts

/-- The three mutually recursive loops of the engine, as the argument type of
one fuel-indexed interpreter:
`run stack list i` is the scan loop of `expand` (macro.c lines 526-558),
`mac stack d args` is `expand_macro` (lines 345-400), and
`pre stack args` is the argument pre-expansion loop of `expand_macro`
(lines 361-366).  The C disabling stack (`expand_stack`) is the `stack`
component: `expand_macro` pushes the name on entry and pops it after the
post-substitution rescan, which is exactly passing the extended stack to the
jobs it spawns. -/
inductive Job where
  | run (stack : List String) (list : List Token) (i : Nat)
  | mac (stack : List String) (d : Lacc.Macro) (args : List (List Token))
  | pre (stack : List String) (args : List (List Token))

/-- Result of a job: a token list (for `run` and `mac`) or the pre-expanded
argument vector (for `pre`). -/
inductive Out where
  | toks (l : List Token)
  | argl (l : List (List Token))
deriving DecidableEq

/-- One step of the interpreter: the loop bodies, with the recursive calls
abstracted into `rec`.  The `run` branch mirrors the scan loop of `expand`
(macro.c lines 526-558): on an `IDENTIFIER` bound to a non-disabled macro
that is object-like or (function-like and followed by `'('` — the lookahead
`array_get(list, i + 1)` is an unchecked read, one past the end when the
identifier is last, modelled as the zeroed slot `zeroTok`), read the
arguments, run the substituter, splice `take i ++ expn ++ rest` in place of
the invocation slice and continue at `i + len expn`.  The `mac` branch
mirrors `expand_macro` (lines 345-400): stringify snapshot (if the flag is
set), argument pre-expansion (the `pre` branch, lines 361-366), substitution
walk, paste pass, then the rescan of the result with the name still on the
stack.  `definition`'s store-back of the `__FILE__`/`__LINE__` refresh is
dropped (`.1`): the lexer state is constant during a run and every later
lookup recomputes the same slot-0 token, so the refreshed macro handed to
the caller is all that is observable.  The `Out`-shape mismatches cannot
occur and are mapped to `assertFail`. -/
def interpBody (env : Env) (tbl : Table) (rec : Job → Except PpErr Out) :
    Job → Except PpErr Out
  | .run stack list i =>
    match list.get? i with
    | none => .ok (.toks list)
    | some t =>
      if t.tok == .IDENTIFIER then
        match (definition env tbl t.str).1 with
        | some d =>
          if !is_macro_expanded stack d &&
              (d.mtype != .FUNCTION_LIKE || (list.getD (i + 1) zeroTok).tok == .ch 40) then
            match read_args d (list.drop (i + 1)) with
            | .error e => .error e
            | .ok (args, rest) =>
              match rec (.mac stack d args) with
              | .error e => .error e
              | .ok (.argl _) => .error .assertFail
              | .ok (.toks expn) =>
                let expn' := lws_fix t.lws expn
                rec (.run stack (list.take i ++ expn' ++ rest) (i + expn'.length))
          else rec (.run stack list (i + 1))
        | none => rec (.run stack list (i + 1))
      else rec (.run stack list (i + 1))
  | .mac stack d args =>
    let stack' := stack ++ [d.name]
    match (if d.stringify then stringifyAll args else .ok []) with
    | .error e => .error e
    | .ok strings =>
      match rec (.pre stack' args) with
      | .error e => .error e
      | .ok (.toks _) => .error .assertFail
      | .ok (.argl args') =>
        match substLoop d.params args' strings d.replacement with
        | .error e => .error e
        | .ok sub =>
          match expand_paste_operators env sub with
          | .error e => .error e
          | .ok pasted => rec (.run stack' pasted 0)
  | .pre _ [] => .ok (.argl [])
  | .pre stack (a :: rest) =>
    match rec (.run stack a 0) with
    | .error e => .error e
    | .ok (.argl _) => .error .assertFail
    | .ok (.toks a') =>
      match rec (.pre stack rest) with
      | .error e => .error e
      | .ok (.toks _) => .error .assertFail
      | .ok (.argl rs) => .ok (.argl (arg_ws_fix a' :: rs))

/-- The fuel-indexed interpreter: each recursive step of the three loops
spends one unit of fuel and goes through `interpBody`, so the recursion is
structural and concrete runs reduce by `rfl`; `outOfFuel` marks exhaustion
and is never produced with sufficient fuel (see `expand_sufficient_fuel`). -/
def interp (env : Env) (tbl : Table) : Nat → Job → Except PpErr Out
  | 0, _ => .error .outOfFuel
  | Nat.succ f, j => interpBody env tbl (interp env tbl f) j

/-- `expand` (macro.c lines 518-559): scan the list from index 0.  The
interpreter always answers a `run` job with a token list; the impossible
shape is mapped to `assertFail`. -/
def expand (env : Env) (tbl : Table) (fuel : Nat) (stack : List String)
    (list : List Token) : Except PpErr (List Token) :=
  match interp env tbl fuel (.run stack list 0) with
  | .error e => .error e
  | .ok (.toks l) => .ok l
  | .ok (.argl _) => .error .assertFail

/-- The number of table entries whose names are not on the disabling stack:
the quantity that bounds the nesting depth of `expand_macro`. -/
def enabledCount (tbl : Table) (stack : List String) : Nat :=
  (tbl.filter fun m => !is_macro_expanded stack m).length

/-- The short-circuit point of `expand`'s guard (macro.c lines 534-536) at
which `array_get(list, i + 1)` is evaluated: the scanner sits on an
`IDENTIFIER` bound to a defined, non-disabled, function-like macro. -/
def triesLookahead (env : Env) (tbl : Table) (stack : List String)
    (list : List Token) (i : Nat) : Bool :=
  match list.get? i with
  | none => false
  | some t =>
    t.tok == .IDENTIFIER &&
      match (definition env tbl t.str).1 with
      | none => false
      | some d => !is_macro_expanded stack d && d.mtype == .FUNCTION_LIKE

/-! ### Concrete sample data for closed runs -/

/-- A simple total tokenizer model for closed runs: any buffer retokenizes to
a single identifier spelling the whole buffer.  The concrete runs below never
reach `tokenize` (their paste operands include `EMPTY_ARG` or never paste),
so this choice is unobservable in them. -/
def sampleTokenize (s : String) : Token × Nat :=
  ({ tok := .IDENTIFIER, str := s }, s.length)

/-- Lexer state for closed runs: line 17 of `main.c`. -/
def env0 : Env := { filePath := "main.c", fileLine := 17, tokenize := sampleTokenize }

def idTok (s : String) : Token := { tok := .IDENTIFIER, str := s }

def numTok (n : Int) : Token := { tok := .NUMBER, numVal := n }

def lpTok : Token := { tok := .ch 40 }

def rpTok : Token := { tok := .ch 41 }

def ppTok : Token := { tok := .TOKEN_PASTE }

def eaTok : Token := { tok := .EMPTY_ARG }

def nlTok : Token := { tok := .NEWLINE }

def paramTok (n : Int) : Token := { tok := .PARAM, numVal := n }

/-- `#define F F` -/
def macroF : Lacc.Macro :=
  { name := "F", mtype := .OBJECT_LIKE, params := 0, replacement := [idTok ("F")] }

def tblF : Table := [macroF]

/-- `#define E` (empty replacement) -/
def macroE : Lacc.Macro :=
  { name := "E", mtype := .OBJECT_LIKE, params := 0, replacement := [] }

def tblE : Table := [macroE]

/-- `#define G(x) x` -/
def macroG : Lacc.Macro :=
  { name := "G", mtype := .FUNCTION_LIKE, params := 1, replacement := [paramTok 0] }

def tblG : Table := [macroG]

/-- `#define F 42 G` (an object-like macro whose expansion ends in the name
of a function-like macro) -/
def macroFG : Lacc.Macro :=
  { name := "F", mtype := .OBJECT_LIKE, params := 0,
    replacement := [numTok 42, idTok ("G")] }

def tblC1 : Table := [macroFG, macroG]

/-! ### Predicates used by the claims -/

/-- A token that is neither `##` nor `PARAM` (the kinds claim C2 asserts are
eliminated by `expand`). -/
def goodTok (t : Token) : Bool :=
  t.tok != .TOKEN_PASTE && t.tok != .PARAM

/-- Every token of the list is neither `##` nor `PARAM`. -/
def goodList (l : List Token) : Prop := ∀ t ∈ l, goodTok t = true

/-- No stored replacement list contains a `##` token. -/
def tblPasteFree (tbl : Table) : Prop :=
  ∀ m ∈ tbl, ∀ t ∈ m.replacement, t.tok ≠ TokType.TOKEN_PASTE

/-- Goodness of a job's inputs, for the `##`/`PARAM` elimination invariant. -/
def jobGood : Job → Prop
  | .run _ list _ => goodList list
  | .mac _ d args =>
    (∀ t ∈ d.replacement, t.tok ≠ TokType.TOKEN_PASTE) ∧ ∀ a ∈ args, goodList a
  | .pre _ args => ∀ a ∈ args, goodList a

/-- Goodness of a job's result. -/
def outGood : Out → Prop
  | .toks l => goodList l
  | .argl ls => ∀ a ∈ ls, goodList a

/-- `#define A b`: a one-step object-like macro used as a closed witness. -/
def macroA : Lacc.Macro :=
  { name := "A", mtype := .OBJECT_LIKE, params := 0, replacement := [idTok ("b")] }

def tblA : Table := [macroA]

/-- A table carrying a `__FILE__`-flagged entry, for the lookup-refresh
claim. -/
def macroFile : Lacc.Macro :=
  { name := "__FILE__", mtype := .OBJECT_LIKE, params := 0,
    replacement := [numTok 0], is__file__ := true }

def tbl8 : Table := [macroFile, macroG]

/-! ### Auxiliary lemmas: error sets of the fuel-free passes -/

/-- Transport of an error-constructor disequality across result types. -/
theorem err_ne_oof {A B : Type} {e : PpErr}
    (h : (Except.error e : Except PpErr A) ≠ .error .outOfFuel) :
    (Except.error e : Except PpErr B) ≠ .error .outOfFuel := by
  simp only [ne_eq, Except.error.injEq] at h ⊢
  exact h

/-- Transport of an error-constructor disequality across result types
(general error). -/
theorem err_ne_transport {A B : Type} {e e' : PpErr}
    (h : (Except.error e : Except PpErr A) ≠ .error e') :
    (Except.error e : Except PpErr B) ≠ .error e' := by
  simp only [ne_eq, Except.error.injEq] at h ⊢
  exact h

theorem strLoop_no_oof : ∀ l first acc, strLoop first acc l ≠ .error .outOfFuel := by
  intro l
  induction l with
  | nil => intro first acc; simp [strLoop]
  | cons t rest ih =>
    intro first acc
    simp only [strLoop]
    split
    · simp
    · split
      · split <;> simp
      · exact ih _ _

theorem stringify_no_oof : ∀ l, stringify l ≠ .error .outOfFuel := by
  intro l
  simp only [stringify]
  split
  · simp
  · split
    · simp
    · cases hs : strLoop true ("") l with
      | error e =>
        have := strLoop_no_oof l true ("")
        rw [hs] at this
        simpa using fun h => this (by rw [h])
      | ok s => simp

theorem stringifyAll_no_oof :
    ∀ args, stringifyAll args ≠ .error .outOfFuel := by
  intro args
  induction args with
  | nil => simp [stringifyAll]
  | cons a rest ih =>
    simp only [stringifyAll]
    cases h : stringify a with
    | error e =>
      have := stringify_no_oof a
      rw [h] at this
      simpa using fun hc => this (by rw [hc])
    | ok t =>
      cases h2 : stringifyAll rest with
      | error e =>
        rw [h2] at ih
        simpa using fun hc => ih (by rw [hc])
      | ok ts => simp

theorem paste_no_oof : ∀ env l r, paste env l r ≠ .error .outOfFuel := by
  intro env l r
  simp only [paste]
  split
  · simp
  · split
    · simp
    · split
      · simp
      · split <;> simp

/-- The paste loop cannot exhaust its iteration fuel as long as the fuel
exceeds the number of tokens left to read: `j` grows by at least one per
iteration and `List.set` keeps the length invariant. -/
theorem pasteLoop_no_oof :
    ∀ td env list i j, list.length - j < td →
      pasteLoop env td list i j ≠ .error .outOfFuel := by
  intro td
  induction td with
  | zero => intro env list i j h; omega
  | succ td ih =>
    intro env list i j h
    simp only [pasteLoop]
    split
    · split
      · split
        · split
          · exact ih env list _ (j + 2) (by omega)
          · cases hp : paste env _ _ with
            | error e =>
              have := paste_no_oof env (list.getD i zeroTok) (list.getD (j + 1) zeroTok)
              rw [hp] at this
              simpa using fun hc => this (by rw [hc])
            | ok p => exact ih env _ i (j + 2) (by simp; omega)
        · split
          · split
            · exact ih env _ _ (j + 1) (by simp; omega)
            · exact ih env list _ (j + 1) (by omega)
          · exact ih env list i (j + 1) (by omega)
      · simp
    · simp

theorem expand_paste_operators_no_oof :
    ∀ env list, expand_paste_operators env list ≠ .error .outOfFuel := by
  intro env list
  simp only [expand_paste_operators]
  split
  · simp
  · split
    · split
      · simp
      · exact pasteLoop_no_oof (list.length + 1) env list 0 1 (by omega)
    · simp

theorem skip_no_oof : ∀ s tt, skip s tt ≠ .error .outOfFuel := by
  intro s tt
  cases s with
  | nil => simp [skip]
  | cons t rest => simp only [skip]; split <;> simp

theorem read_arg_no_oof :
    ∀ s nesting acc, read_arg s nesting acc ≠ .error .outOfFuel := by
  intro s
  induction s with
  | nil => intro nesting acc; simp [read_arg]
  | cons t rest ih =>
    intro nesting acc
    simp only [read_arg]
    split
    · split
      · simp
      · split
        · exact ih _ _
        · split
          · split
            · simp
            · exact ih _ _
          · exact ih _ _
    · simp

theorem readArgsLoop_no_oof :
    ∀ n s, readArgsLoop n s ≠ .error .outOfFuel := by
  intro n
  induction n with
  | zero => intro s; simp [readArgsLoop]
  | succ n ih =>
    intro s
    simp only [readArgsLoop]
    split
    next e heq =>
      have := read_arg_no_oof s 0 []
      rw [heq] at this
      exact err_ne_oof this
    next arg s1 heq =>
      split
      · simp
      · split
        next e heq2 =>
          have := skip_no_oof s1 (.ch 44)
          rw [heq2] at this
          exact err_ne_oof this
        next s2 heq2 =>
          split
          next e heq3 =>
            have := ih s2
            rw [heq3] at this
            exact this
          next rest2 s3 heq3 => simp

theorem read_args_no_oof :
    ∀ d s, read_args d s ≠ .error .outOfFuel := by
  intro d s
  simp only [read_args]
  split
  · split
    next e heq =>
      have := skip_no_oof s (.ch 40)
      rw [heq] at this
      exact err_ne_oof this
    next s0 heq =>
      split
      next e heq1 =>
        have := readArgsLoop_no_oof d.params s0
        rw [heq1] at this
        exact this
      next args s1 heq1 =>
        split
        next e heq2 =>
          have := skip_no_oof s1 (.ch 41)
          rw [heq2] at this
          exact err_ne_oof this
        next s2 heq2 => simp
  · simp

theorem substLoop_no_oof_aux :
    ∀ n repl params args strings, repl.length ≤ n →
      substLoop params args strings repl ≠ .error .outOfFuel := by
  intro n
  induction n with
  | zero =>
    intro repl params args strings hlen
    cases repl with
    | nil => simp [substLoop]
    | cons t rest => simp at hlen
  | succ n ih =>
    intro repl params args strings hlen
    match repl with
    | [] => simp [substLoop]
    | [t] =>
      simp only [substLoop]
      split
      · split
        · simp
        · split
          · simp
          · simp
      · simp
    | t :: r :: rest2 =>
      have hr : (r :: rest2).length ≤ n := by simp at hlen ⊢; omega
      have hr2 : rest2.length ≤ n := by simp at hlen ⊢; omega
      simp only [substLoop]
      split
      · split
        · simp
        · split
          · simp
          · split
            next e heq =>
              have := ih (r :: rest2) params args strings hr
              rw [heq] at this
              exact this
            next tail heq => simp
      · split
        · split
          · simp
          · split
            · simp
            · split
              · simp
              · split
                next e heq =>
                  have := ih rest2 params args strings hr2
                  rw [heq] at this
                  exact this
                next tail heq => simp
        · split
          next e heq =>
            have := ih (r :: rest2) params args strings hr
            rw [heq] at this
            exact this
          next tail heq => simp

theorem substLoop_no_oof :
    ∀ params args strings repl,
      substLoop params args strings repl ≠ .error .outOfFuel := fun params args strings repl =>
  substLoop_no_oof_aux repl.length repl params args strings (Nat.le_refl _)

/-! ### Fuel monotonicity of the interpreter -/

/-- Congruence of the step functional: if two recursion callbacks agree on
every job on which the second does not run out of fuel, the step bodies agree
wherever the second body does not run out of fuel. -/
theorem interpBody_congr (env : Env) (tbl : Table)
    (rec rec' : Job → Except PpErr Out)
    (hrec : ∀ j, rec' j ≠ .error .outOfFuel → rec j = rec' j) :
    ∀ j, interpBody env tbl rec' j ≠ .error .outOfFuel →
      interpBody env tbl rec j = interpBody env tbl rec' j := by
  intro j h
  cases j with
  | run stack list i =>
    simp only [interpBody] at h ⊢
    cases hg : list.get? i with
    | none => rfl
    | some t =>
      simp only [hg] at h ⊢
      by_cases hid : (t.tok == TokType.IDENTIFIER) = true
      · simp only [hid, if_true] at h ⊢
        cases hd : (definition env tbl t.str).1 with
        | none =>
          simp only [hd] at h ⊢
          exact hrec _ h
        | some d =>
          simp only [hd] at h ⊢
          by_cases hc : (!is_macro_expanded stack d &&
              (d.mtype != MacroType.FUNCTION_LIKE ||
                (list.getD (i + 1) zeroTok).tok == TokType.ch 40)) = true
          · simp only [hc, if_true] at h ⊢
            cases hra : read_args d (list.drop (i + 1)) with
            | error e => simp [hra]
            | ok p =>
              obtain ⟨args, rest⟩ := p
              simp only [hra] at h ⊢
              cases hm : rec' (.mac stack d args) with
              | error e =>
                rw [hm] at h
                simp only [] at h
                rw [hrec _ (by rw [hm]; exact h), hm]
              | ok o =>
                rw [hm] at h
                rw [hrec _ (by rw [hm]; simp), hm]
                cases o with
                | argl l => rfl
                | toks expn =>
                  simp only [] at h ⊢
                  exact hrec _ h
          · simp only [hc, if_false] at h ⊢
            exact hrec _ h
      · simp only [hid, if_false] at h ⊢
        exact hrec _ h
  | mac stack d args =>
    simp only [interpBody] at h ⊢
    cases hs : (if d.stringify then stringifyAll args else Except.ok []) with
    | error e => simp [hs]
    | ok strings =>
      simp only [hs] at h ⊢
      cases hp : rec' (.pre (stack ++ [d.name]) args) with
      | error e =>
        rw [hp] at h
        simp only [] at h
        rw [hrec _ (by rw [hp]; exact h), hp]
      | ok o =>
        rw [hp] at h
        rw [hrec _ (by rw [hp]; simp), hp]
        cases o with
        | toks l => rfl
        | argl args2 =>
          simp only [] at h ⊢
          cases hsub : substLoop d.params args2 strings d.replacement with
          | error e => simp [hsub]
          | ok sub =>
            simp only [hsub] at h ⊢
            cases hpa : expand_paste_operators env sub with
            | error e => simp [hpa]
            | ok pasted =>
              simp only [hpa] at h ⊢
              exact hrec _ h
  | pre stack args =>
    cases args with
    | nil => rfl
    | cons a rest =>
      simp only [interpBody] at h ⊢
      cases hr : rec' (.run stack a 0) with
      | error e =>
        rw [hr] at h
        simp only [] at h
        rw [hrec _ (by rw [hr]; exact h), hr]
      | ok o =>
        rw [hr] at h
        rw [hrec _ (by rw [hr]; simp), hr]
        cases o with
        | argl l => rfl
        | toks a2 =>
          simp only [] at h ⊢
          cases h2 : rec' (.pre stack rest) with
          | error e =>
            rw [h2] at h
            simp only [] at h
            rw [hrec _ (by rw [h2]; exact h), h2]
          | ok o2 =>
            rw [h2] at h
            rw [hrec _ (by rw [h2]; simp), h2]

/-- Adding fuel does not change a result that was reached without running
out: the interpreter is a standard fuel-indexed fixpoint approximation. -/
theorem interp_mono :
    ∀ f env tbl j, interp env tbl f j ≠ .error .outOfFuel →
      interp env tbl (f + 1) j = interp env tbl f j := by
  intro f
  induction f with
  | zero =>
    intro env tbl j h
    exact absurd rfl h
  | succ f ih =>
    intro env tbl j h
    show interpBody env tbl (interp env tbl (f + 1)) j =
      interpBody env tbl (interp env tbl f) j
    exact interpBody_congr env tbl _ _ (fun j' hj => ih env tbl j' hj) j h

/-- Fuel monotonicity, `≤` form. -/
theorem interp_mono_le :
    ∀ f f' env tbl j, f ≤ f' → interp env tbl f j ≠ .error .outOfFuel →
      interp env tbl f' j = interp env tbl f j := by
  intro f f' env tbl j hle h
  obtain ⟨k, rfl⟩ := Nat.exists_eq_add_of_le hle
  induction k with
  | zero => rfl
  | succ k ih =>
    have hmid : interp env tbl (f + k) j ≠ .error .outOfFuel := by
      rw [ih (Nat.le_add_right f k)]; exact h
    calc interp env tbl (f + (k + 1)) j
        = interp env tbl (f + k) j := interp_mono (f + k) env tbl j hmid
      _ = interp env tbl f j := ih (Nat.le_add_right f k)

/-! ### Support lemmas for the termination argument -/

theorem tableLookup_name :
    ∀ tbl name m, tableLookup tbl name = some m → m ∈ tbl ∧ m.name = name := by
  intro tbl name m h
  refine ⟨List.mem_of_find?_eq_some h, ?_⟩
  have := List.find?_some h
  simpa using this

theorem definition_some_name :
    ∀ env tbl name d, (definition env tbl name).1 = some d →
      ∃ m, m ∈ tbl ∧ m.name = d.name := by
  intro env tbl name d h
  unfold definition at h
  cases hl : tableLookup tbl name with
  | none => rw [hl] at h; simp at h
  | some m =>
    rw [hl] at h
    obtain ⟨hm, hname⟩ := tableLookup_name tbl name m hl
    refine ⟨m, hm, ?_⟩
    by_cases hf : m.is__file__ = true
    · simp only [hf, if_true] at h
      have hd := by simpa using h
      subst hd
      rfl
    · simp only [hf, if_false] at h
      by_cases hg : m.is__line__ = true
      · simp only [hg, if_true] at h
        have hd := by simpa using h
        subst hd
        rfl
      · simp only [hg, if_false] at h
        have hd := by simpa using h
        subst hd
        rfl

theorem is_macro_expanded_append :
    ∀ stack name m, is_macro_expanded (stack ++ [name]) m =
      (is_macro_expanded stack m || (name == m.name)) := by
  intro stack name m
  simp [is_macro_expanded, List.any_append]

theorem one_le_enabledCount :
    ∀ tbl stack name, (∃ m, m ∈ tbl ∧ m.name = name) →
      (stack.any fun s => s == name) = false →
      1 ≤ enabledCount tbl stack := by
  intro tbl stack name hmem hns
  obtain ⟨m, hm, hname⟩ := hmem
  have hmf : m ∈ tbl.filter fun x => !is_macro_expanded stack x := by
    rw [List.mem_filter]
    refine ⟨hm, ?_⟩
    simp only [is_macro_expanded, hname, hns, Bool.not_false]
  have := List.length_pos_of_mem hmf
  simpa [enabledCount] using this

/-- Disabling one more name can only shrink the set of enabled macros. -/
theorem enabled_filter_le :
    ∀ (tbl : Table) stack name,
      (tbl.filter fun x => !is_macro_expanded (stack ++ [name]) x).length ≤
        (tbl.filter fun x => !is_macro_expanded stack x).length := by
  intro tbl stack name
  induction tbl with
  | nil => simp
  | cons x rest ih =>
    simp only [List.filter_cons]
    cases hnew : (!is_macro_expanded (stack ++ [name]) x) with
    | false =>
      cases hold : (!is_macro_expanded stack x) with
      | false => simp [hnew, hold]; exact ih
      | true => simp [hnew, hold]; omega
    | true =>
      have h2 : is_macro_expanded (stack ++ [name]) x = false := by
        simpa using hnew
      rw [is_macro_expanded_append] at h2
      have h1 : is_macro_expanded stack x = false := (Bool.or_eq_false_iff.mp h2).1
      have hold : (!is_macro_expanded stack x) = true := by simp [h1]
      simp [hnew, hold]
      omega

theorem enabledCount_append_lt :
    ∀ tbl stack name, (∃ m, m ∈ tbl ∧ m.name = name) →
      (stack.any fun s => s == name) = false →
      enabledCount tbl (stack ++ [name]) < enabledCount tbl stack := by
  intro tbl stack name hmem hns
  obtain ⟨m, hm, hname⟩ := hmem
  simp only [enabledCount]
  induction tbl with
  | nil => cases hm
  | cons x rest ih =>
    rcases List.mem_cons.1 hm with rfl | hx
    · have hxnew : (!is_macro_expanded (stack ++ [name]) m) = false := by
        rw [is_macro_expanded_append]
        rw [hname]
        simp
      have hxold : (!is_macro_expanded stack m) = true := by
        simp only [is_macro_expanded, hname, hns, Bool.not_false]
      have hle := enabled_filter_le rest stack name
      simp [List.filter_cons, hxnew, hxold]
      omega
    · have hrec := ih hx
      simp only [List.filter_cons]
      cases hnew : (!is_macro_expanded (stack ++ [name]) x) with
      | false =>
        cases hold : (!is_macro_expanded stack x) with
        | false => simp [hnew, hold]; exact hrec
        | true => simp [hnew, hold]; omega
      | true =>
        have h2 : is_macro_expanded (stack ++ [name]) x = false := by
          simpa using hnew
        rw [is_macro_expanded_append] at h2
        have h1 : is_macro_expanded stack x = false := (Bool.or_eq_false_iff.mp h2).1
        have hold : (!is_macro_expanded stack x) = true := by simp [h1]
        simp [hnew, hold]
        omega

theorem read_arg_rest_le :
    ∀ s nesting acc arg rest, read_arg s nesting acc = .ok (arg, rest) →
      rest.length ≤ s.length := by
  intro s
  induction s with
  | nil => intro n acc arg rest h; simp [read_arg] at h
  | cons t tl ih =>
    intro n acc arg rest h
    simp only [read_arg] at h
    split at h
    · split at h
      · simp at h
      · split at h
        · exact Nat.le_succ_of_le (ih _ _ _ _ h)
        · split at h
          · split at h
            · simp at h
            · exact Nat.le_succ_of_le (ih _ _ _ _ h)
          · exact Nat.le_succ_of_le (ih _ _ _ _ h)
    · simp only [Except.ok.injEq, Prod.mk.injEq] at h
      obtain ⟨h1, h2⟩ := h
      rw [← h2]

theorem skip_rest_lt :
    ∀ s want rest, skip s want = .ok rest → rest.length < s.length := by
  intro s want rest h
  cases s with
  | nil => simp [skip] at h
  | cons t tl =>
    simp only [skip] at h
    split at h
    · simp at h
    · simp only [Except.ok.injEq] at h
      rw [← h]
      simp

theorem readArgsLoop_rest_le :
    ∀ n s args rest, readArgsLoop n s = .ok (args, rest) → rest.length ≤ s.length := by
  intro n
  induction n with
  | zero =>
    intro s args rest h
    simp only [readArgsLoop, Except.ok.injEq, Prod.mk.injEq] at h
    obtain ⟨h1, h2⟩ := h
    rw [← h2]
  | succ n ih =>
    intro s args rest h
    simp only [readArgsLoop] at h
    split at h
    · simp at h
    next arg s1 heq =>
      split at h
      · simp only [Except.ok.injEq, Prod.mk.injEq] at h
        obtain ⟨h1, h2⟩ := h
        rw [← h2]
        exact read_arg_rest_le s 0 [] arg s1 heq
      · split at h
        · simp at h
        next s2 heq2 =>
          split at h
          · simp at h
          next args2 s3 heq3 =>
            simp only [Except.ok.injEq, Prod.mk.injEq] at h
            obtain ⟨h1, h2⟩ := h
            rw [← h2]
            calc s3.length ≤ s2.length := ih s2 args2 s3 heq3
              _ ≤ s1.length := Nat.le_of_lt (skip_rest_lt s1 _ s2 heq2)
              _ ≤ s.length := read_arg_rest_le s 0 [] arg s1 heq

theorem read_args_rest_le :
    ∀ d s args rest, read_args d s = .ok (args, rest) → rest.length ≤ s.length := by
  intro d s args rest h
  simp only [read_args] at h
  split at h
  · split at h
    · simp at h
    next s0 heq0 =>
      split at h
      · simp at h
      next args1 s1 heq1 =>
        split at h
        · simp at h
        next s2 heq2 =>
          simp only [Except.ok.injEq, Prod.mk.injEq] at h
          obtain ⟨h1, h2⟩ := h
          rw [← h2]
          calc s2.length ≤ s1.length := Nat.le_of_lt (skip_rest_lt s1 _ s2 heq2)
            _ ≤ s0.length := readArgsLoop_rest_le d.params s0 args1 s1 heq1
            _ ≤ s.length := Nat.le_of_lt (skip_rest_lt s _ s0 heq0)
  · simp only [Except.ok.injEq, Prod.mk.injEq] at h
    obtain ⟨h1, h2⟩ := h
    rw [← h2]

/-! ### Sufficient fuel: the interpreter never needs more fuel than the
nesting bound allowed by the disabling stack -/

/-- If every substituter invocation launched from this stack can be given
enough fuel, then the scan loop of `expand` can: the loop itself makes
progress because each iteration either advances `i` or replaces the slice
`[i, endptr)` (of positive length) by the expansion and advances past it. -/
theorem suff_run_of_mac :
    ∀ env tbl stack,
      (∀ d args, (∃ m, m ∈ tbl ∧ m.name = d.name) →
        (stack.any fun s => s == d.name) = false →
        ∃ f, interp env tbl f (.mac stack d args) ≠ .error .outOfFuel) →
      ∀ list i, ∃ f, interp env tbl f (.run stack list i) ≠ .error .outOfFuel := by
  intro env tbl stack hM
  suffices aux : ∀ n list i, list.length - i ≤ n →
      ∃ f, interp env tbl f (.run stack list i) ≠ .error .outOfFuel by
    intro list i
    exact aux list.length list i (by omega)
  intro n
  induction n with
  | zero =>
    intro list i hlen
    refine ⟨1, ?_⟩
    have hg : list.get? i = none := List.get?_eq_none.2 (by omega)
    show interpBody env tbl (interp env tbl 0) (.run stack list i) ≠ _
    simp only [interpBody, hg]
    simp
  | succ n ih =>
    intro list i hlen
    by_cases hi : i < list.length
    case neg =>
      refine ⟨1, ?_⟩
      have hg : list.get? i = none := List.get?_eq_none.2 (by omega)
      show interpBody env tbl (interp env tbl 0) (.run stack list i) ≠ _
      simp only [interpBody, hg]
      simp
    case pos =>
      have hg : list.get? i = some (list.get ⟨i, hi⟩) := List.get?_eq_get hi
      by_cases hid : ((list.get ⟨i, hi⟩).tok == TokType.IDENTIFIER) = true
      case neg =>
        obtain ⟨f, hf⟩ := ih list (i + 1) (by omega)
        refine ⟨f + 1, ?_⟩
        show interpBody env tbl (interp env tbl f) (.run stack list i) ≠ _
        simp only [interpBody, hg, hid, if_false]
        exact hf
      case pos =>
        cases hd : (definition env tbl (list.get ⟨i, hi⟩).str).1 with
        | none =>
          obtain ⟨f, hf⟩ := ih list (i + 1) (by omega)
          refine ⟨f + 1, ?_⟩
          show interpBody env tbl (interp env tbl f) (.run stack list i) ≠ _
          simp only [interpBody, hg, hid, if_true, hd]
          exact hf
        | some d =>
          by_cases hc : (!is_macro_expanded stack d &&
              (d.mtype != MacroType.FUNCTION_LIKE ||
                (list.getD (i + 1) zeroTok).tok == TokType.ch 40)) = true
          case neg =>
            obtain ⟨f, hf⟩ := ih list (i + 1) (by omega)
            refine ⟨f + 1, ?_⟩
            show interpBody env tbl (interp env tbl f) (.run stack list i) ≠ _
            simp only [interpBody, hg, hid, if_true, hd, hc, if_false]
            exact hf
          case pos =>
            cases hra : read_args d (list.drop (i + 1)) with
            | error e =>
              refine ⟨1, ?_⟩
              show interpBody env tbl (interp env tbl 0) (.run stack list i) ≠ _
              simp only [interpBody, hg, hid, if_true, hd, hc, hra]
              have := read_args_no_oof d (list.drop (i + 1))
              rw [hra] at this
              exact err_ne_oof this
            | ok p =>
              obtain ⟨args, rest⟩ := p
              have hmem := definition_some_name env tbl (list.get ⟨i, hi⟩).str d hd
              have hns : (stack.any fun s => s == d.name) = false := by
                have h1 : (!is_macro_expanded stack d) = true := by
                  cases hand : (!is_macro_expanded stack d) with
                  | true => rfl
                  | false => rw [hand] at hc; simp at hc
                simpa [is_macro_expanded] using h1
              obtain ⟨f1, hf1⟩ := hM d args hmem hns
              cases hm1 : interp env tbl f1 (.mac stack d args) with
              | error e =>
                refine ⟨f1 + 1, ?_⟩
                show interpBody env tbl (interp env tbl f1) (.run stack list i) ≠ _
                simp only [interpBody, hg, hid, if_true, hd, hc, hra, hm1]
                rw [hm1] at hf1
                exact hf1
              | ok o =>
                cases o with
                | argl l =>
                  refine ⟨f1 + 1, ?_⟩
                  show interpBody env tbl (interp env tbl f1) (.run stack list i) ≠ _
                  simp only [interpBody, hg, hid, if_true, hd, hc, hra, hm1]
                  simp
                | toks expn =>
                  have hrest : rest.length ≤ (list.drop (i + 1)).length :=
                    read_args_rest_le _ _ _ _ hra
                  rw [List.length_drop] at hrest
                  obtain ⟨f2, hf2⟩ := ih
                    (list.take i ++ lws_fix (list.get ⟨i, hi⟩).lws expn ++ rest)
                    (i + (lws_fix (list.get ⟨i, hi⟩).lws expn).length) (by
                      simp only [List.length_append, List.length_take]
                      omega)
                  refine ⟨max f1 f2 + 1, ?_⟩
                  have e1 : interp env tbl (max f1 f2) (.mac stack d args) =
                      .ok (.toks expn) := by
                    rw [interp_mono_le f1 (max f1 f2) env tbl _
                      (Nat.le_max_left _ _) hf1, hm1]
                  have e2 := interp_mono_le f2 (max f1 f2) env tbl
                    (.run stack
                      (list.take i ++ lws_fix (list.get ⟨i, hi⟩).lws expn ++ rest)
                      (i + (lws_fix (list.get ⟨i, hi⟩).lws expn).length))
                    (Nat.le_max_right _ _) hf2
                  show interpBody env tbl (interp env tbl (max f1 f2))
                    (.run stack list i) ≠ _
                  simp only [interpBody, hg, hid, if_true, hd, hc, hra, e1]
                  rw [e2]
                  exact hf2

/-- If the scan loop can always be given enough fuel from this stack, so can
the argument pre-expansion loop. -/
theorem suff_pre_of_run :
    ∀ env tbl stack,
      (∀ list i, ∃ f, interp env tbl f (.run stack list i) ≠ .error .outOfFuel) →
      ∀ args, ∃ f, interp env tbl f (.pre stack args) ≠ .error .outOfFuel := by
  intro env tbl stack hR args
  induction args with
  | nil =>
    refine ⟨1, ?_⟩
    show interpBody env tbl (interp env tbl 0) (.pre stack []) ≠ _
    simp [interpBody]
  | cons a rest ih =>
    obtain ⟨f1, hf1⟩ := hR a 0
    obtain ⟨f2, hf2⟩ := ih
    refine ⟨max f1 f2 + 1, ?_⟩
    have e1 := interp_mono_le f1 (max f1 f2) env tbl (.run stack a 0)
      (Nat.le_max_left _ _) hf1
    have e2 := interp_mono_le f2 (max f1 f2) env tbl (.pre stack rest)
      (Nat.le_max_right _ _) hf2
    show interpBody env tbl (interp env tbl (max f1 f2)) (.pre stack (a :: rest)) ≠ _
    simp only [interpBody]
    rw [e1]
    cases hr : interp env tbl f1 (.run stack a 0) with
    | error e =>
      rw [hr] at hf1
      exact hf1
    | ok o =>
      cases o with
      | argl l => simp
      | toks a2 =>
        simp only []
        rw [e2]
        cases h2 : interp env tbl f2 (.pre stack rest) with
        | error e =>
          rw [h2] at hf2
          exact hf2
        | ok o2 => cases o2 <;> simp

/-- The substituter can always be given enough fuel: the name it pushes is a
table entry not yet on the disabling stack, so the number of enabled macros
strictly decreases with each nesting level. -/
theorem suff_mac :
    ∀ e env tbl stack, enabledCount tbl stack ≤ e →
      ∀ d args, (∃ m, m ∈ tbl ∧ m.name = d.name) →
        (stack.any fun s => s == d.name) = false →
        ∃ f, interp env tbl f (.mac stack d args) ≠ .error .outOfFuel := by
  intro e
  induction e with
  | zero =>
    intro env tbl stack hle d args hmem hns
    have := one_le_enabledCount tbl stack d.name hmem hns
    omega
  | succ e ihe =>
    intro env tbl stack hle d args hmem hns
    have hlt : enabledCount tbl (stack ++ [d.name]) ≤ e := by
      have := enabledCount_append_lt tbl stack d.name hmem hns
      omega
    have hM' := fun d' args' hm' hns' =>
      ihe env tbl (stack ++ [d.name]) hlt d' args' hm' hns'
    have hR' := suff_run_of_mac env tbl (stack ++ [d.name]) hM'
    have hA' := suff_pre_of_run env tbl (stack ++ [d.name]) hR'
    cases hs : (if d.stringify then stringifyAll args else Except.ok []) with
    | error err =>
      refine ⟨1, ?_⟩
      show interpBody env tbl (interp env tbl 0) (.mac stack d args) ≠ _
      simp only [interpBody, hs]
      have : (if d.stringify then stringifyAll args else Except.ok []) ≠
          Except.error PpErr.outOfFuel := by
        split
        · exact stringifyAll_no_oof args
        · simp
      rw [hs] at this
      exact err_ne_oof this
    | ok strings =>
      obtain ⟨f1, hf1⟩ := hA' args
      cases hp : interp env tbl f1 (.pre (stack ++ [d.name]) args) with
      | error err =>
        refine ⟨f1 + 1, ?_⟩
        show interpBody env tbl (interp env tbl f1) (.mac stack d args) ≠ _
        simp only [interpBody, hs, hp]
        rw [hp] at hf1
        exact hf1
      | ok o =>
        cases o with
        | toks l =>
          refine ⟨f1 + 1, ?_⟩
          show interpBody env tbl (interp env tbl f1) (.mac stack d args) ≠ _
          simp only [interpBody, hs, hp]
          simp
        | argl args2 =>
          cases hsub : substLoop d.params args2 strings d.replacement with
          | error err =>
            refine ⟨f1 + 1, ?_⟩
            show interpBody env tbl (interp env tbl f1) (.mac stack d args) ≠ _
            simp only [interpBody, hs, hp, hsub]
            have := substLoop_no_oof d.params args2 strings d.replacement
            rw [hsub] at this
            exact err_ne_oof this
          | ok sub =>
            cases hpa : expand_paste_operators env sub with
            | error err =>
              refine ⟨f1 + 1, ?_⟩
              show interpBody env tbl (interp env tbl f1) (.mac stack d args) ≠ _
              simp only [interpBody, hs, hp, hsub, hpa]
              have := expand_paste_operators_no_oof env sub
              rw [hpa] at this
              exact err_ne_oof this
            | ok pasted =>
              obtain ⟨f2, hf2⟩ := hR' pasted 0
              refine ⟨max f1 f2 + 1, ?_⟩
              have e1 : interp env tbl (max f1 f2)
                  (.pre (stack ++ [d.name]) args) = .ok (.argl args2) := by
                rw [interp_mono_le f1 (max f1 f2) env tbl _
                  (Nat.le_max_left _ _) hf1, hp]
              have e2 := interp_mono_le f2 (max f1 f2) env tbl
                (.run (stack ++ [d.name]) pasted 0) (Nat.le_max_right _ _) hf2
              show interpBody env tbl (interp env tbl (max f1 f2))
                (.mac stack d args) ≠ _
              simp only [interpBody, hs, e1, hsub, hpa]
              rw [e2]
              exact hf2

/-- Full termination of `expand`: with fuel one more than the number of
enabled macros times nothing — simply some sufficient fuel — the interpreter
never runs out.  (`∃ f` together with `interp_mono_le` says the run
converges.) -/
theorem expand_sufficient_fuel :
    ∀ env tbl stack list,
      ∃ f, interp env tbl f (.run stack list 0) ≠ .error .outOfFuel := by
  intro env tbl stack list
  exact suff_run_of_mac env tbl stack
    (fun d args hmem hns =>
      suff_mac (enabledCount tbl stack) env tbl stack (Nat.le_refl _) d args hmem hns)
    list 0

/-! ### The negative-depth branch of `read_arg` is dead code -/

theorem read_arg_no_negDepth :
    ∀ s (nesting : Int) acc, 0 ≤ nesting →
      read_arg s nesting acc ≠ .error .negDepth := by
  intro s
  induction s with
  | nil => intro n acc _; simp [read_arg]
  | cons t tl ih =>
    intro n acc hn
    simp only [read_arg]
    split
    next hcond =>
      split
      · simp
      · split
        next hlp => exact ih _ _ (by omega)
        next hlp =>
          split
          next hrp =>
            split
            next hneg =>
              exfalso
              have ht41 : t.tok = TokType.ch 41 := by simpa using hrp
              have hfalse : (t.tok != TokType.ch 44 && t.tok != TokType.ch 41) = false := by
                simp [ht41]
              rw [hfalse] at hcond
              have hne : n ≠ 0 := by simpa using hcond
              omega
            next hneg => exact ih _ _ (by omega)
          next hrp => exact ih _ _ hn
    next hcond => simp

theorem skip_no_negDepth : ∀ s want, skip s want ≠ .error .negDepth := by
  intro s want
  cases s with
  | nil => simp [skip]
  | cons t tl => simp only [skip]; split <;> simp

theorem readArgsLoop_no_negDepth :
    ∀ n s, readArgsLoop n s ≠ .error .negDepth := by
  intro n
  induction n with
  | zero => intro s; simp [readArgsLoop]
  | succ n ih =>
    intro s
    simp only [readArgsLoop]
    split
    next e heq =>
      have := read_arg_no_negDepth s 0 [] (by omega)
      rw [heq] at this
      exact err_ne_transport this
    next arg s1 heq =>
      split
      · simp
      · split
        next e heq2 =>
          have := skip_no_negDepth s1 (.ch 44)
          rw [heq2] at this
          exact err_ne_transport this
        next s2 heq2 =>
          split
          next e heq3 =>
            have := ih s2
            rw [heq3] at this
            exact err_ne_transport this
          next rest2 s3 heq3 => simp

theorem read_args_no_negDepth :
    ∀ d s, read_args d s ≠ .error .negDepth := by
  intro d s
  simp only [read_args]
  split
  · split
    next e heq =>
      have := skip_no_negDepth s (.ch 40)
      rw [heq] at this
      exact err_ne_transport this
    next s0 heq =>
      split
      next e heq1 =>
        have := readArgsLoop_no_negDepth d.params s0
        rw [heq1] at this
        exact err_ne_transport this
      next args s1 heq1 =>
        split
        next e heq2 =>
          have := skip_no_negDepth s1 (.ch 41)
          rw [heq2] at this
          exact err_ne_transport this
        next s2 heq2 => simp
  · simp

/-! ### Arguments handed to the substituter are never empty when read -/

theorem read_arg_nonempty :
    ∀ s nesting acc arg rest, read_arg s nesting acc = .ok (arg, rest) →
      arg ≠ [] := by
  intro s
  induction s with
  | nil => intro n acc arg rest h; simp [read_arg] at h
  | cons t tl ih =>
    intro n acc arg rest h
    simp only [read_arg] at h
    split at h
    · split at h
      · simp at h
      · split at h
        · exact ih _ _ _ _ h
        · split at h
          · split at h
            · simp at h
            · exact ih _ _ _ _ h
          · exact ih _ _ _ _ h
    · simp only [Except.ok.injEq, Prod.mk.injEq] at h
      obtain ⟨h1, h2⟩ := h
      rw [← h1]
      split
      · simp
      next hne => simpa [List.isEmpty_iff] using hne

theorem readArgsLoop_args_nonempty :
    ∀ n s args rest, readArgsLoop n s = .ok (args, rest) →
      ∀ a ∈ args, a ≠ [] := by
  intro n
  induction n with
  | zero =>
    intro s args rest h
    simp only [readArgsLoop, Except.ok.injEq, Prod.mk.injEq] at h
    obtain ⟨h1, h2⟩ := h
    rw [← h1]
    simp
  | succ n ih =>
    intro s args rest h
    simp only [readArgsLoop] at h
    split at h
    · simp at h
    next arg s1 heq =>
      split at h
      · simp only [Except.ok.injEq, Prod.mk.injEq] at h
        obtain ⟨h1, h2⟩ := h
        rw [← h1]
        intro a ha
        simp only [List.mem_singleton] at ha
        subst ha
        exact read_arg_nonempty s 0 [] a s1 heq
      · split at h
        · simp at h
        next s2 heq2 =>
          split at h
          · simp at h
          next args2 s3 heq3 =>
            simp only [Except.ok.injEq, Prod.mk.injEq] at h
            obtain ⟨h1, h2⟩ := h
            rw [← h1]
            intro a ha
            rcases List.mem_cons.1 ha with rfl | ha2
            · exact read_arg_nonempty s 0 [] a s1 heq
            · exact ih s2 args2 s3 heq3 a ha2

theorem read_args_args_nonempty :
    ∀ d s args rest, read_args d s = .ok (args, rest) →
      ∀ a ∈ args, a ≠ [] := by
  intro d s args rest h
  simp only [read_args] at h
  split at h
  · split at h
    · simp at h
    next s0 heq0 =>
      split at h
      · simp at h
      next args1 s1 heq1 =>
        split at h
        · simp at h
        next s2 heq2 =>
          simp only [Except.ok.injEq, Prod.mk.injEq] at h
          obtain ⟨h1, h2⟩ := h
          rw [← h1]
          exact readArgsLoop_args_nonempty d.params s0 args1 s1 heq1
  · simp only [Except.ok.injEq, Prod.mk.injEq] at h
    obtain ⟨h1, h2⟩ := h
    rw [← h1]
    simp

/-! ### Comparison and table lemmas for the redefinition claim -/

theorem tok_cmp_self : ∀ t, tok_cmp t t = false := by
  intro t
  simp only [tok_cmp, bne_self_eq_false]
  split <;> simp_all [type_equal]

theorem macrocmp_self : ∀ m, macrocmp m m = false := by
  intro m
  simp only [macrocmp, bne_self_eq_false, Bool.or_self, if_false]
  induction m.replacement with
  | nil => simp
  | cons t rest ih =>
    simp only [List.zip_cons_cons, List.any_cons, tok_cmp_self, Bool.false_or]
    exact ih

theorem macrocmp_setFlags_left :
    ∀ a b, macrocmp (setFlags a) b = macrocmp a b := by
  intro a b
  rfl

theorem setFlags_name : ∀ m, (setFlags m).name = m.name := by
  intro m
  rfl

theorem tableLookup_update_self :
    ∀ tbl n old m', tableLookup tbl n = some old → m'.name = n →
      tableLookup (tableUpdate tbl n m') n = some m' := by
  intro tbl
  induction tbl with
  | nil => intro n old m' h hm; simp [tableLookup] at h
  | cons x rest ih =>
    intro n old m' h hm
    simp only [tableUpdate]
    by_cases hx : (x.name == n) = true
    · simp only [hx, if_true]
      simp [tableLookup, List.find?_cons, hm]
    · simp only [hx, if_false]
      have h' : tableLookup rest n = some old := by
        simpa [tableLookup, List.find?_cons, hx] using h
      simpa [tableLookup, List.find?_cons, hx] using ih n old m' h' hm

theorem tableLookup_append_single :
    ∀ tbl n m', tableLookup tbl n = none → m'.name = n →
      tableLookup (tbl ++ [m']) n = some m' := by
  intro tbl
  induction tbl with
  | nil => intro n m' h hm; simp [tableLookup, List.find?, hm]
  | cons x rest ih =>
    intro n m' h hm
    simp only [tableLookup, List.find?_cons] at h
    cases hx : (x.name == n) with
    | true => rw [hx] at h; simp at h
    | false =>
      rw [hx] at h
      simp only [] at h
      have := ih n m' h hm
      simpa [tableLookup, List.find?_cons, hx] using this

theorem tableLookup_update_ne :
    ∀ tbl n m' k, m'.name = n → k ≠ n →
      tableLookup (tableUpdate tbl n m') k = tableLookup tbl k := by
  intro tbl
  induction tbl with
  | nil => intro n m' k hm hk; rfl
  | cons x rest ih =>
    intro n m' k hm hk
    simp only [tableUpdate]
    by_cases hx : (x.name == n) = true
    · simp only [hx, if_true]
      have hxn : x.name = n := by simpa using hx
      have hpx : (x.name == k) = false := by
        rw [hxn]
        simpa using fun hc => hk hc.symm
      have hpm : (m'.name == k) = false := by
        rw [hm]
        simpa using fun hc => hk hc.symm
      simp [tableLookup, List.find?_cons, hpx, hpm]
    · simp only [hx, if_false]
      cases hpx : (x.name == k) with
      | true => simp [tableLookup, List.find?_cons, hpx]
      | false =>
        have := ih n m' k hm hk
        simpa [tableLookup, List.find?_cons, hpx] using this

/-! ### Claim theorems -/

/-- C3: `expand(L)` terminates for every input token array and every macro
table: some fuel always suffices for the interpreter (no `outOfFuel`), because
each nested `expand_macro` pushes a table name not yet on the disabling stack;
in particular with only `#define F F` defined, expanding the single token `F`
terminates and leaves it unchanged. -/
theorem C3_expand_terminates :
    (∀ env tbl stack list, ∃ f,
      expand env tbl f stack list ≠ .error .outOfFuel) ∧
    expand env0 tblF 10 [] [idTok ("F")] = .ok [idTok ("F")] := by
  constructor
  · intro env tbl stack list
    obtain ⟨f, hf⟩ := expand_sufficient_fuel env tbl stack list
    refine ⟨f, ?_⟩
    simp only [expand]
    cases h : interp env tbl f (.run stack list 0) with
    | error e =>
      rw [h] at hf
      exact err_ne_transport hf
    | ok o => cases o <;> simp
  · rfl

/-- C4, counterexample: a two-element list ending in `##` passes
`expand_paste_operators` unchanged, with no fatal error — the trailing-`##`
check sits under `len > 2`, so the claim ("regardless of the length of L") is
false. -/
theorem C4_counterexample :
    expand_paste_operators env0 [idTok ("x"), ppTok] = .ok [idTok ("x"), ppTok] ∧
    ppTok.tok = TokType.TOKEN_PASTE := ⟨rfl, rfl⟩

/-- C4, amended: a leading `##` is fatal for every non-empty list; a trailing
`##` is fatal only when the list has more than two tokens; a two-token list
with a trailing `##` is returned unchanged without any diagnostic. -/
theorem C4_amended :
    (∀ env (h : Token) l, h.tok = TokType.TOKEN_PASTE →
      expand_paste_operators env (h :: l) = .error .pasteBegin) ∧
    (∀ env (l : List Token), 2 < l.length →
      (l.getD 0 zeroTok).tok ≠ TokType.TOKEN_PASTE →
      (l.getD (l.length - 1) zeroTok).tok = TokType.TOKEN_PASTE →
      expand_paste_operators env l = .error .pasteEnd) ∧
    (∀ env (t : Token), t.tok ≠ TokType.TOKEN_PASTE →
      expand_paste_operators env [t, ppTok] = .ok [t, ppTok]) := by
  refine ⟨?_, ?_, ?_⟩
  · intro env h l hh
    simp [expand_paste_operators, hh]
  · intro env l hlen h0 hlast
    have h0' : ((l.getD 0 zeroTok).tok == TokType.TOKEN_PASTE) = false := by
      simpa using h0
    simp only [expand_paste_operators, h0', Bool.and_false, hlast]
    have : (2 < l.length) = True := by simp [hlen]
    simp [hlen, hlast]
  · intro env t ht
    have ht' : (t.tok == TokType.TOKEN_PASTE) = false := by simpa using ht
    simp [expand_paste_operators, ht']

/-- C4, witness for the amended theorem at concrete inputs. -/
theorem C4_witness :
    expand_paste_operators env0 (ppTok :: [idTok ("x")]) = .error .pasteBegin ∧
    expand_paste_operators env0 [idTok ("z"), ppTok] = .ok [idTok ("z"), ppTok] :=
  ⟨C4_amended.1 env0 ppTok [idTok ("x")] rfl,
   C4_amended.2.2 env0 (idTok ("z")) (by decide)⟩

/-- C5: evaluating the paste pass at `[EMPTY_ARG, ##, EMPTY_ARG, x]`.  The
spec says the pasted pair vanishes and `x` survives as `[x]`; the code
decrements the `unsigned` write cursor `i` from 0, wrapping to `2^32 - 1`,
and on the next iteration violates its own `assert(i < len)` (macro.c line
316).  With assertions compiled out, the subsequent `i < j - 1` comparison
misfires and the function returns `[EMPTY_ARG]` instead of `[x]`. -/
theorem C5_paste_vanish_bug :
    expand_paste_operators env0 [eaTok, ppTok, eaTok, idTok ("x")] =
      .error .assertFail := rfl

/-- C6, counterexample (negation of the claim): no token stream makes
`read_arg` raise the negative-depth diagnostic — the loop is entered with the
current token only when the depth is non-zero or the token is not a top-level
`,`/`)`, so the depth never goes below zero and the branch is dead code. -/
theorem C6_counterexample :
    ¬ ∃ s, read_arg s 0 [] = .error .negDepth := by
  rintro ⟨s, hs⟩
  exact read_arg_no_negDepth s 0 [] (by omega) hs

/-- C6, amended: the ("Negative nesting depth in expansion.") branch is
unreachable from any entry of the argument reader (`read_arg` starting at any
non-negative depth, and `read_args` as a whole); a stream with more `)` than
`(` simply ends the argument at the unmatched top-level `)`. -/
theorem C6_amended :
    (∀ s (nesting : Int) acc, 0 ≤ nesting →
      read_arg s nesting acc ≠ .error .negDepth) ∧
    (∀ d s, read_args d s ≠ .error .negDepth) ∧
    (∀ s, read_arg (rpTok :: s) 0 [] = .ok ([eaTok], rpTok :: s)) := by
  refine ⟨read_arg_no_negDepth, read_args_no_negDepth, ?_⟩
  intro s
  simp [read_arg, rpTok, eaTok]

/-- C6, witness for the amended theorem at concrete inputs. -/
theorem C6_witness :
    read_arg [rpTok, rpTok] 0 [] ≠ .error .negDepth ∧
    read_arg (rpTok :: [idTok ("y")]) 0 [] = .ok ([eaTok], rpTok :: [idTok ("y")]) :=
  ⟨C6_amended.1 [rpTok, rpTok] 0 [] (by omega), C6_amended.2.2 [idTok ("y")]⟩

/-- C7: `define(m)` with an existing macro of the same name is fatal exactly
when `macrocmp` reports a difference (same kind, arity, name, replacement
length and pairwise `tok_cmp`-equal tokens); a fresh insert succeeds, and a
successful `define` can always be repeated verbatim (`define(m); define(m)`
succeeds, since the recomputed flags are not compared). -/
theorem C7_define_redefinition :
    (∀ tbl m old, tableLookup tbl m.name = some old →
      (define tbl m = .error .redef ↔ macrocmp old m = true)) ∧
    (∀ tbl m, tableLookup tbl m.name = none →
      define tbl m = .ok (tbl ++ [setFlags m])) ∧
    (∀ tbl tbl' m, define tbl m = .ok tbl' → ∃ tbl2, define tbl' m = .ok tbl2) := by
  refine ⟨?_, ?_, ?_⟩
  · intro tbl m old h
    simp only [define, h]
    constructor
    · intro he
      by_contra hc
      have hcf : macrocmp old m = false := by
        cases hcc : macrocmp old m with
        | false => rfl
        | true => exact absurd hcc hc
      rw [hcf] at he
      simp at he
    · intro ht
      rw [ht]
      simp
  · intro tbl m h
    simp [define, h, macrocmp_self]
  · intro tbl tbl' m h
    simp only [define] at h
    cases hl : tableLookup tbl m.name with
    | some old =>
      simp only [hl] at h
      cases hc : macrocmp old m with
      | true => rw [hc] at h; simp at h
      | false =>
        rw [hc] at h
        simp only [if_neg (by simp : ¬(false = true)), Except.ok.injEq] at h
        have hlook : tableLookup tbl' m.name = some (setFlags old) := by
          rw [← h]
          exact tableLookup_update_self tbl m.name old (setFlags old) hl
            (by rw [setFlags_name]; exact (tableLookup_name tbl m.name old hl).2)
        refine ⟨tableUpdate tbl' m.name (setFlags (setFlags old)), ?_⟩
        simp [define, hlook, macrocmp_setFlags_left, hc]
    | none =>
      simp only [hl] at h
      rw [macrocmp_self m] at h
      simp only [if_neg (by simp : ¬(false = true)), Except.ok.injEq] at h
      have hlook : tableLookup tbl' m.name = some (setFlags m) := by
        rw [← h]
        exact tableLookup_append_single tbl m.name (setFlags m) hl (setFlags_name m)
      refine ⟨tableUpdate tbl' m.name (setFlags (setFlags m)), ?_⟩
      simp [define, hlook, macrocmp_setFlags_left, macrocmp_self m]

/-- C7, witness: a same-name redefinition with a different replacement is
fatal, while repeating an identical `define` succeeds. -/
theorem C7_witness :
    (define [setFlags macroA] { macroA with replacement := [idTok ("c")] } =
      .error .redef ↔
      macrocmp (setFlags macroA) { macroA with replacement := [idTok ("c")] } = true) ∧
    define ([] : Table) macroA = .ok ([setFlags macroA]) ∧
    (∃ tbl2, define [setFlags macroA] macroA = .ok tbl2) := by
  refine ⟨C7_define_redefinition.1 [setFlags macroA]
    { macroA with replacement := [idTok ("c")] } (setFlags macroA) (by decide), ?_, ?_⟩
  · have := C7_define_redefinition.2.1 ([] : Table) macroA (by decide)
    simpa using this
  · exact C7_define_redefinition.2.2 [] [setFlags macroA] macroA
      (by have := C7_define_redefinition.2.1 ([] : Table) macroA (by decide)
          simpa using this)

/-- C9, counterexample: with `#define E` (empty replacement), the argument
array `[E]` handed to the pre-expansion loop of `expand_macro` pre-expands to
the empty array, so `args[i].data[0]` (the leading-whitespace fix at macro.c
line 363) indexes position 0 of a length-0 array. -/
theorem C9_counterexample :
    interp env0 tblE 8 (.pre ["M"] [[idTok ("E")]]) = .ok (.argl [[]]) ∧
    expand env0 tblE 5 ["M"] [idTok ("E")] = .ok [] := ⟨rfl, rfl⟩

/-- C9, amended: the argument arrays are non-empty when the ArgumentReader
hands them over (a missing argument is the `EMPTY_ARG` sentinel), so the
`args[i][0]` access is in bounds exactly when the recursive pre-expansion
leaves the argument non-empty — which an argument expanding to nothing
violates. -/
theorem C9_amended :
    (∀ s nesting acc arg rest, read_arg s nesting acc = .ok (arg, rest) →
      arg ≠ []) ∧
    (∀ d s args rest, read_args d s = .ok (args, rest) → ∀ a ∈ args, a ≠ []) :=
  ⟨read_arg_nonempty, read_args_args_nonempty⟩

/-- C9, witness for the amended theorem at a concrete stream. -/
theorem C9_witness : ([eaTok] : List Token) ≠ [] :=
  C9_amended.1 [rpTok] 0 [] [eaTok] [rpTok] rfl

/-- C10, counterexample: with `#define G(x) x`, scanning the one-token list
`[G]` reaches the lookahead point (identifier bound to a defined, enabled,
function-like macro), and the index `i + 1 = 1` read by
`array_get(list, i + 1)` is not within the bounds of the length-1 list. -/
theorem C10_counterexample :
    triesLookahead env0 tblG [] [idTok ("G")] 0 = true ∧
    ¬ (0 + 1 < ([idTok ("G")] : List Token).length) := ⟨rfl, by decide⟩

/-- C10, amended: whenever the scanner evaluates the lookahead
`array_get(list, i + 1)`, the scanned identifier is in bounds, and the
lookahead index is in bounds if and only if the identifier is not the last
token; when it is the last token the C read is one past the end (modelled
here as the zeroed slot `zeroTok`, which is not `'('`, so the macro is simply
not expanded). -/
theorem C10_amended :
    (∀ env tbl stack list i, triesLookahead env tbl stack list i = true →
      i < list.length ∧ (i + 1 < list.length ↔ i + 1 ≠ list.length)) ∧
    expand env0 tblG 5 [] [idTok ("G")] = .ok [idTok ("G")] := by
  constructor
  · intro env tbl stack list i h
    simp only [triesLookahead] at h
    cases hg : list.get? i with
    | none => rw [hg] at h; simp at h
    | some t =>
      have hi : i < list.length := by
        by_contra hc
        rw [List.get?_eq_none.2 (by omega)] at hg
        cases hg
      exact ⟨hi, by omega⟩
  · rfl

/-- C10, witness for the amended theorem at the one-token list `[G]`. -/
theorem C10_witness :
    0 < ([idTok ("G")] : List Token).length ∧
    (0 + 1 < ([idTok ("G")] : List Token).length ↔
      0 + 1 ≠ ([idTok ("G")] : List Token).length) :=
  C10_amended.1 env0 tblG [] [idTok ("G")] 0 rfl

/-- C1, counterexample: with `#define F 42 G` and `#define G(x) x`, the code
expands `F(7)` to `42 G(7)` — the invocation of `G` formed jointly by the end
of the expansion and the tokens that followed `F` is NOT a candidate for
further expansion, because the scan resumes past the spliced region; a scan
resuming at the start of the spliced region (third conjunct: running the
scanner on the spliced list from index 0) would instead produce `42 7`. -/
theorem C1_counterexample :
    expand env0 tblC1 40 [] [idTok ("F"), lpTok, numTok 7, rpTok] =
      .ok [numTok 42, idTok ("G"), lpTok, numTok 7, rpTok] ∧
    expand env0 tblC1 40 [] [numTok 42, idTok ("G"), lpTok, numTok 7, rpTok] =
      .ok [numTok 42, numTok 7] ∧
    ([numTok 42, idTok ("G"), lpTok, numTok 7, rpTok] : List Token) ≠
      [numTok 42, numTok 7] := ⟨rfl, rfl, by decide⟩

/-- C1, amended: when the scanner fires an expansion at index `i` — the token
is an identifier bound to a defined, non-disabled macro, object-like or
followed by `'('`, the arguments read successfully and the substituter
returns `expn` — the loop continues on the spliced list
`take i ++ expn ++ rest` at index `i + len expn`, i.e. at the END of the
spliced region (rescanning of `expn` itself happened inside `expand_macro`,
with the macro still disabled). -/
theorem C1_amended :
    ∀ env tbl f stack list i t d args rest expn,
      list.get? i = some t →
      (t.tok == TokType.IDENTIFIER) = true →
      (definition env tbl t.str).1 = some d →
      (!is_macro_expanded stack d &&
        (d.mtype != MacroType.FUNCTION_LIKE ||
          (list.getD (i + 1) zeroTok).tok == TokType.ch 40)) = true →
      read_args d (list.drop (i + 1)) = .ok (args, rest) →
      interp env tbl f (.mac stack d args) = .ok (.toks expn) →
      interp env tbl (f + 1) (.run stack list i) =
        interp env tbl f (.run stack (list.take i ++ lws_fix t.lws expn ++ rest)
          (i + (lws_fix t.lws expn).length)) := by
  intro env tbl f stack list i t d args rest expn hg hid hd hc hra hm
  show interpBody env tbl (interp env tbl f) (.run stack list i) = _
  simp only [interpBody, hg, hid, if_true, hd, hc, hra, hm]

/-- C1, witness: the amended recursion equation applied at the concrete
`F(7)` state — the next scan state is the spliced list at index
`0 + len expn = 2`. -/
theorem C1_witness :
    interp env0 tblC1 30 (.run [] [idTok ("F"), lpTok, numTok 7, rpTok] 0) =
      interp env0 tblC1 29 (.run []
        ([idTok ("F"), lpTok, numTok 7, rpTok].take 0 ++
          lws_fix (idTok ("F")).lws [numTok 42, idTok ("G")] ++
          [lpTok, numTok 7, rpTok])
        (0 + (lws_fix (idTok ("F")).lws [numTok 42, idTok ("G")]).length)) :=
  C1_amended env0 tblC1 29 [] [idTok ("F"), lpTok, numTok 7, rpTok] 0 (idTok ("F"))
    macroFG [] [lpTok, numTok 7, rpTok] [numTok 42, idTok ("G")]
    rfl rfl rfl rfl rfl rfl

/-- C8: every `definition` lookup that hits a macro flagged `is__file__`
overwrites slot 0 of the stored replacement with a `STRING` token carrying
the current file path; a hit flagged `is__line__` overwrites slot 0 with a
`PREP_NUMBER` token carrying the decimal line number; nothing else changes:
the rest of that replacement, every other field, every other table entry, and
(for unflagged or missing names) the whole table are untouched. -/
theorem C8_definition_refresh :
    (∀ env, get__file__token env = { tok := .STRING_T, str := env.filePath }) ∧
    (∀ env, get__line__token env =
      { tok := .PREP_NUMBER, str := toString env.fileLine }) ∧
    (∀ env tbl name m, tableLookup tbl name = some m → m.is__file__ = true →
      definition env tbl name =
        (some { m with replacement := m.replacement.set 0 (get__file__token env) },
         tableUpdate tbl name
           { m with replacement := m.replacement.set 0 (get__file__token env) })) ∧
    (∀ env tbl name m, tableLookup tbl name = some m → m.is__file__ = false →
      m.is__line__ = true →
      definition env tbl name =
        (some { m with replacement := m.replacement.set 0 (get__line__token env) },
         tableUpdate tbl name
           { m with replacement := m.replacement.set 0 (get__line__token env) })) ∧
    (∀ env tbl name m, tableLookup tbl name = some m → m.is__file__ = false →
      m.is__line__ = false → definition env tbl name = (some m, tbl)) ∧
    (∀ env tbl name, tableLookup tbl name = none →
      definition env tbl name = (none, tbl)) ∧
    (∀ (rep : List Token) (tok : Token) j, j ≠ 0 →
      (rep.set 0 tok).get? j = rep.get? j) ∧
    (∀ (rep : List Token) (tok : Token), rep ≠ [] →
      (rep.set 0 tok).get? 0 = some tok) ∧
    (∀ env tbl name m k, tableLookup tbl name = some m → k ≠ name →
      tableLookup (definition env tbl name).2 k = tableLookup tbl k) := by
  refine ⟨fun env => rfl, fun env => rfl, ?_, ?_, ?_, ?_, ?_, ?_, ?_⟩
  · intro env tbl name m h hf
    simp [definition, h, hf]
  · intro env tbl name m h hf hl
    simp [definition, h, hf, hl]
  · intro env tbl name m h hf hl
    simp [definition, h, hf, hl]
  · intro env tbl name h
    simp [definition, h]
  · intro rep tok j hj
    cases rep with
    | nil => simp
    | cons a l =>
      cases j with
      | zero => exact absurd rfl hj
      | succ j2 => rfl
  · intro rep tok hne
    cases rep with
    | nil => exact absurd rfl hne
    | cons a l => rfl
  · intro env tbl name m k h hk
    have hname := (tableLookup_name tbl name m h).2
    simp only [definition, h]
    by_cases hf : m.is__file__ = true
    · simp only [hf, if_true]
      exact tableLookup_update_ne tbl name _ k (by simpa using hname) hk
    · simp only [hf, if_false]
      by_cases hl : m.is__line__ = true
      · simp only [hl, if_true]
        exact tableLookup_update_ne tbl name _ k (by simpa using hname) hk
      · simp [hf, hl]

/-- C8, witness: looking `__FILE__` up in a table whose entry is flagged
`is__file__` rewrites slot 0 to `STRING ("main.c")` and leaves the other entry
(`G`) untouched. -/
theorem C8_witness :
    definition env0 tbl8 ("__FILE__") =
      (some { macroFile with
        replacement := macroFile.replacement.set 0 (get__file__token env0) },
       tableUpdate tbl8 ("__FILE__")
         { macroFile with
           replacement := macroFile.replacement.set 0 (get__file__token env0) }) ∧
    tableLookup (definition env0 tbl8 ("__FILE__")).2 ("G") = tableLookup tbl8 ("G") :=
  ⟨C8_definition_refresh.2.2.1 env0 tbl8 ("__FILE__") macroFile rfl rfl,
   C8_definition_refresh.2.2.2.2.2.2.2.2 env0 tbl8 ("__FILE__") macroFile ("G") rfl
     (by decide)⟩

/-! ### Preservation of `##`/`PARAM`-freedom -/

theorem goodList_of_subset :
    ∀ (l l' : List Token), l' ⊆ l → goodList l → goodList l' := by
  intro l l' hsub hg t ht
  exact hg t (hsub ht)

theorem goodList_append :
    ∀ (a b : List Token), goodList a → goodList b → goodList (a ++ b) := by
  intro a b ha hb t ht
  rcases List.mem_append.1 ht with h | h
  · exact ha t h
  · exact hb t h

theorem goodList_lws_fix :
    ∀ w l, goodList l → goodList (lws_fix w l) := by
  intro w l hg t ht
  cases l with
  | nil => cases ht
  | cons e0 es =>
    simp only [lws_fix] at ht
    rcases List.mem_cons.1 ht with rfl | h
    · exact hg e0 (List.mem_cons_self _ _)
    · exact hg t (List.mem_cons_of_mem _ h)

theorem goodList_arg_ws_fix :
    ∀ l, goodList l → goodList (arg_ws_fix l) := by
  intro l hg t ht
  cases l with
  | nil => cases ht
  | cons t0 ts =>
    simp only [arg_ws_fix] at ht
    split at ht
    · rcases List.mem_cons.1 ht with rfl | h
      · exact hg t0 (List.mem_cons_self _ _)
      · exact hg t (List.mem_cons_of_mem _ h)
    · exact hg t ht

theorem goodList_set :
    ∀ (l : List Token) n a, goodList l → goodTok a = true →
      goodList (l.set n a) := by
  intro l n a hg ha t ht
  rcases List.mem_or_eq_of_mem_set ht with h | rfl
  · exact hg t h
  · exact ha

theorem read_arg_good :
    ∀ s nesting acc arg rest, goodList s → goodList acc →
      read_arg s nesting acc = .ok (arg, rest) →
      goodList arg ∧ goodList rest := by
  intro s
  induction s with
  | nil => intro n acc arg rest _ _ h; simp [read_arg] at h
  | cons t tl ih =>
    intro n acc arg rest hs hacc h
    have htl : goodList tl :=
      goodList_of_subset _ _ (List.subset_cons_self t tl) hs
    have ht : goodTok t = true := hs t (List.mem_cons_self _ _)
    have hacc' : goodList (acc ++ [t]) :=
      goodList_append acc [t] hacc (by intro x hx; simp at hx; subst hx; exact ht)
    simp only [read_arg] at h
    split at h
    · split at h
      · simp at h
      · split at h
        · exact ih _ _ _ _ htl hacc' h
        · split at h
          · split at h
            · simp at h
            · exact ih _ _ _ _ htl hacc' h
          · exact ih _ _ _ _ htl hacc' h
    · simp only [Except.ok.injEq, Prod.mk.injEq] at h
      obtain ⟨h1, h2⟩ := h
      constructor
      · rw [← h1]
        split
        · intro x hx
          simp at hx
          subst hx
          rfl
        · exact hacc
      · rw [← h2]
        exact hs

theorem skip_good :
    ∀ s want rest, goodList s → skip s want = .ok rest → goodList rest := by
  intro s want rest hs h
  cases s with
  | nil => simp [skip] at h
  | cons t tl =>
    simp only [skip] at h
    split at h
    · simp at h
    · simp only [Except.ok.injEq] at h
      rw [← h]
      exact goodList_of_subset _ _ (List.subset_cons_self t tl) hs

theorem readArgsLoop_good :
    ∀ n s args rest, goodList s → readArgsLoop n s = .ok (args, rest) →
      (∀ a ∈ args, goodList a) ∧ goodList rest := by
  intro n
  induction n with
  | zero =>
    intro s args rest hs h
    simp only [readArgsLoop, Except.ok.injEq, Prod.mk.injEq] at h
    obtain ⟨h1, h2⟩ := h
    constructor
    · rw [← h1]; simp
    · rw [← h2]; exact hs
  | succ n ih =>
    intro s args rest hs h
    simp only [readArgsLoop] at h
    split at h
    · simp at h
    next arg s1 heq =>
      have harg := read_arg_good s 0 [] arg s1 hs (by intro x hx; cases hx) heq
      split at h
      · simp only [Except.ok.injEq, Prod.mk.injEq] at h
        obtain ⟨h1, h2⟩ := h
        constructor
        · rw [← h1]
          intro a ha
          simp only [List.mem_singleton] at ha
          subst ha
          exact harg.1
        · rw [← h2]; exact harg.2
      · split at h
        · simp at h
        next s2 heq2 =>
          have hs2 := skip_good s1 _ s2 harg.2 heq2
          split at h
          · simp at h
          next args2 s3 heq3 =>
            have hrec := ih s2 args2 s3 hs2 heq3
            simp only [Except.ok.injEq, Prod.mk.injEq] at h
            obtain ⟨h1, h2⟩ := h
            constructor
            · rw [← h1]
              intro a ha
              rcases List.mem_cons.1 ha with rfl | ha2
              · exact harg.1
              · exact hrec.1 a ha2
            · rw [← h2]; exact hrec.2

theorem read_args_good :
    ∀ d s args rest, goodList s → read_args d s = .ok (args, rest) →
      (∀ a ∈ args, goodList a) ∧ goodList rest := by
  intro d s args rest hs h
  simp only [read_args] at h
  split at h
  · split at h
    · simp at h
    next s0 heq0 =>
      have hs0 := skip_good s _ s0 hs heq0
      split at h
      · simp at h
      next args1 s1 heq1 =>
        have hl := readArgsLoop_good d.params s0 args1 s1 hs0 heq1
        split at h
        · simp at h
        next s2 heq2 =>
          have hs2 := skip_good s1 _ s2 hl.2 heq2
          simp only [Except.ok.injEq, Prod.mk.injEq] at h
          obtain ⟨h1, h2⟩ := h
          exact ⟨by rw [← h1]; exact hl.1, by rw [← h2]; exact hs2⟩
  · simp only [Except.ok.injEq, Prod.mk.injEq] at h
    obtain ⟨h1, h2⟩ := h
    constructor
    · rw [← h1]; simp
    · rw [← h2]; exact hs

theorem stringify_kind :
    ∀ l t, stringify l = .ok t → t.tok = TokType.STRING_T := by
  intro l t h
  simp only [stringify] at h
  split at h
  · simp only [Except.ok.injEq] at h; rw [← h]
  · split at h
    · simp only [Except.ok.injEq] at h; rw [← h]
    · split at h
      · simp at h
      · simp only [Except.ok.injEq] at h; rw [← h]

theorem stringifyAll_kinds :
    ∀ args ts, stringifyAll args = .ok ts → ∀ t ∈ ts, t.tok = TokType.STRING_T := by
  intro args
  induction args with
  | nil =>
    intro ts h
    simp only [stringifyAll, Except.ok.injEq] at h
    rw [← h]
    simp
  | cons a rest ih =>
    intro ts h
    simp only [stringifyAll] at h
    split at h
    · simp at h
    next t0 heq =>
      split at h
      · simp at h
      next ts2 heq2 =>
        simp only [Except.ok.injEq] at h
        rw [← h]
        intro t ht
        rcases List.mem_cons.1 ht with rfl | ht2
        · exact stringify_kind a t heq
        · exact ih ts2 heq2 t ht2

theorem substLoop_good_aux :
    ∀ n repl params args strings out, repl.length ≤ n →
      (∀ t ∈ repl, t.tok ≠ TokType.TOKEN_PASTE) →
      (∀ a ∈ args, goodList a) →
      (∀ s ∈ strings, s.tok = TokType.STRING_T) →
      substLoop params args strings repl = .ok out → goodList out := by
  intro n
  induction n with
  | zero =>
    intro repl params args strings out hlen hrepl hargs hstr h
    cases repl with
    | nil =>
      simp only [substLoop, Except.ok.injEq] at h
      rw [← h]
      intro t ht
      cases ht
    | cons t rest => simp at hlen
  | succ n ih =>
    intro repl params args strings out hlen hrepl hargs hstr h
    match repl, hlen, hrepl, h with
    | [], _, _, h =>
      simp only [substLoop, Except.ok.injEq] at h
      rw [← h]
      intro t ht
      cases ht
    | [t], hlen, hrepl, h =>
      simp only [substLoop] at h
      split at h
      · split at h
        · simp at h
        · split at h
          · simp at h
          next a heqa =>
            simp only [Except.ok.injEq] at h
            rw [← h]
            simpa using hargs a (List.get?_mem heqa)
      next hpar =>
        simp only [Except.ok.injEq] at h
        rw [← h]
        intro x hx
        simp only [List.mem_singleton] at hx
        subst hx
        have h1 : x.tok ≠ TokType.TOKEN_PASTE := hrepl x (List.mem_singleton_self x)
        have h2 : x.tok ≠ TokType.PARAM := by simpa using hpar
        simp [goodTok, h1, h2]
    | t :: r :: rest2, hlen, hrepl, h =>
      have hrest : ∀ x ∈ r :: rest2, x.tok ≠ TokType.TOKEN_PASTE := by
        intro x hx
        exact hrepl x (List.mem_cons_of_mem t hx)
      simp only [substLoop] at h
      split at h
      · split at h
        · simp at h
        · split at h
          · simp at h
          next a heqa =>
            split at h
            · simp at h
            next tail heqt =>
              simp only [Except.ok.injEq] at h
              rw [← h]
              exact goodList_append _ _
                (hargs a (List.get?_mem heqa))
                (ih _ params args strings tail (by simp at hlen ⊢; omega)
                  hrest hargs hstr heqt)
      · split at h
        · split at h
          · simp at h
          · split at h
            · simp at h
            next s heqs =>
              split at h
              · simp at h
              · split at h
                · simp at h
                next tail heqt =>
                  simp only [Except.ok.injEq] at h
                  rw [← h]
                  intro x hx
                  rcases List.mem_cons.1 hx with rfl | hx2
                  · have := hstr x (List.get?_mem heqs)
                    simp [goodTok, this]
                  · exact ih _ params args strings tail (by simp at hlen ⊢; omega)
                      (by intro y hy; exact hrest y (List.mem_cons_of_mem r hy))
                      hargs hstr heqt x hx2
        next hpar hhash =>
          split at h
          · simp at h
          next tail heqt =>
            simp only [Except.ok.injEq] at h
            rw [← h]
            intro x hx
            rcases List.mem_cons.1 hx with rfl | hx2
            · have h1 : x.tok ≠ TokType.TOKEN_PASTE :=
                hrepl x (List.mem_cons_self _ _)
              have h2 : x.tok ≠ TokType.PARAM := by simpa using hpar
              simp [goodTok, h1, h2]
            · exact ih _ params args strings tail (by simp at hlen ⊢; omega)
                hrest hargs hstr heqt x hx2

theorem pasteLoop_good :
    ∀ td env list i j out, goodList list →
      pasteLoop env td list i j = .ok out → goodList out := by
  intro td
  induction td with
  | zero => intro env list i j out _ h; simp [pasteLoop] at h
  | succ td ih =>
    intro env list i j out hg h
    simp only [pasteLoop] at h
    split at h
    next hj =>
      split at h
      · split at h
        next hpp =>
          exfalso
          have hmem : list.getD j zeroTok ∈ list := by
            rw [List.getD_eq_getElem?_getD]
            rw [List.getElem?_eq_getElem hj]
            exact List.getElem_mem _
          have := hg _ hmem
          simp only [goodTok, Bool.and_eq_true] at this
          have h1 := this.1
          rw [(by simpa using hpp : (list.getD j zeroTok).tok = TokType.TOKEN_PASTE)] at h1
          simp at h1
        next hpp =>
          split at h
          · split at h
            · exact ih env _ _ _ out
                (goodList_set list _ _ hg (hg _ (by
                  rw [List.getD_eq_getElem?_getD]
                  rw [List.getElem?_eq_getElem hj]
                  exact List.getElem_mem _))) h
            · exact ih env list _ _ out hg h
          · exact ih env list i _ out hg h
      · simp at h
    · simp only [Except.ok.injEq] at h
      rw [← h]
      exact goodList_of_subset list _ (List.take_subset _ list) hg

theorem expand_paste_operators_good :
    ∀ env list out, goodList list →
      expand_paste_operators env list = .ok out → goodList out := by
  intro env list out hg h
  simp only [expand_paste_operators] at h
  split at h
  · simp at h
  · split at h
    · split at h
      · simp at h
      · exact pasteLoop_good _ env list 0 1 out hg h
    · simp only [Except.ok.injEq] at h
      rw [← h]
      exact hg

theorem definition_pastefree :
    ∀ env tbl n d, tblPasteFree tbl → (definition env tbl n).1 = some d →
      ∀ t ∈ d.replacement, t.tok ≠ TokType.TOKEN_PASTE := by
  intro env tbl n d htbl h
  unfold definition at h
  cases hl : tableLookup tbl n with
  | none => rw [hl] at h; simp at h
  | some m =>
    rw [hl] at h
    have hm := (tableLookup_name tbl n m hl).1
    have hmf := htbl m hm
    by_cases hf : m.is__file__ = true
    · simp only [hf, if_true] at h
      have hd := by simpa using h
      subst hd
      intro t ht
      rcases List.mem_or_eq_of_mem_set ht with h2 | rfl
      · exact hmf t h2
      · simp [get__file__token]
    · simp only [hf, if_false] at h
      by_cases hlf : m.is__line__ = true
      · simp only [hlf, if_true] at h
        have hd := by simpa using h
        subst hd
        intro t ht
        rcases List.mem_or_eq_of_mem_set ht with h2 | rfl
        · exact hmf t h2
        · simp [get__line__token]
      · simp only [hlf, if_false] at h
        have hd := by simpa using h
        subst hd
        exact hmf

/-- The `##`/`PARAM` elimination invariant: if the scanned list carries no
`##`/`PARAM` tokens and no stored replacement carries `##`, every successful
interpreter result is `##`/`PARAM`-free (arguments are slices of the scanned
list, `PARAM`s are consumed by the substitution walk, stringify snapshots are
`STRING` tokens, and the paste loop only copies). -/
theorem interp_good :
    ∀ f env tbl j o, tblPasteFree tbl → jobGood j →
      interp env tbl f j = .ok o → outGood o := by
  intro f
  induction f with
  | zero =>
    intro env tbl j o _ _ h
    simp [interp] at h
  | succ f ih =>
    intro env tbl j o htbl hj h
    rw [show interp env tbl (f + 1) j = interpBody env tbl (interp env tbl f) j
      from rfl] at h
    cases j with
    | run stack list i =>
      have hlist : goodList list := hj
      simp only [interpBody] at h
      cases hg : list.get? i with
      | none =>
        rw [hg] at h
        simp only [Except.ok.injEq] at h
        rw [← h]
        exact hlist
      | some t =>
        rw [hg] at h
        simp only [] at h
        split at h
        · split at h
          next d hd =>
            split at h
            next hc =>
              split at h
              · simp at h
              next args rest hra =>
                have hdrop : goodList (list.drop (i + 1)) :=
                  goodList_of_subset list _ (List.drop_subset _ list) hlist
                have hargs := read_args_good d _ args rest hdrop hra
                split at h
                · simp at h
                · simp at h
                next expn hm =>
                  have hexpn : goodList expn := by
                    have := ih env tbl (.mac stack d args) (.toks expn) htbl
                      ⟨definition_pastefree env tbl t.str d htbl hd, hargs.1⟩ hm
                    exact this
                  have hsplice :
                      goodList (list.take i ++ lws_fix t.lws expn ++ rest) := by
                    apply goodList_append
                    · apply goodList_append
                      · exact goodList_of_subset list _ (List.take_subset _ list) hlist
                      · exact goodList_lws_fix _ _ hexpn
                    · exact hargs.2
                  exact ih env tbl
                    (.run stack (list.take i ++ lws_fix t.lws expn ++ rest)
                      (i + (lws_fix t.lws expn).length)) o htbl hsplice h
            · exact ih env tbl (.run stack list (i + 1)) o htbl hlist h
          · exact ih env tbl (.run stack list (i + 1)) o htbl hlist h
        · exact ih env tbl (.run stack list (i + 1)) o htbl hlist h
    | mac stack d args =>
      have hrepl : ∀ t ∈ d.replacement, t.tok ≠ TokType.TOKEN_PASTE := hj.1
      have hargs : ∀ a ∈ args, goodList a := hj.2
      simp only [interpBody] at h
      split at h
      · simp at h
      next strings hs =>
        have hstr : ∀ s ∈ strings, s.tok = TokType.STRING_T := by
          split at hs
          · exact stringifyAll_kinds args strings hs
          · simp only [Except.ok.injEq] at hs
            rw [← hs]
            simp
        split at h
        · simp at h
        · simp at h
        next args2 hp =>
          have hargs2 : ∀ a ∈ args2, goodList a :=
            ih env tbl (.pre (stack ++ [d.name]) args) (.argl args2) htbl hargs hp
          split at h
          · simp at h
          next sub hsub =>
            have hsubg : goodList sub :=
              substLoop_good_aux d.replacement.length d.replacement d.params
                args2 strings sub (Nat.le_refl _) hrepl hargs2 hstr hsub
            split at h
            · simp at h
            next pasted hpa =>
              have hpg : goodList pasted :=
                expand_paste_operators_good env sub pasted hsubg hpa
              exact ih env tbl (.run (stack ++ [d.name]) pasted 0) o htbl hpg h
    | pre stack args =>
      cases args with
      | nil =>
        simp only [interpBody, Except.ok.injEq] at h
        rw [← h]
        intro a ha
        cases ha
      | cons a rest =>
        have ha : goodList a := hj a (List.mem_cons_self _ _)
        have hrest : ∀ x ∈ rest, goodList x := fun x hx =>
          hj x (List.mem_cons_of_mem _ hx)
        simp only [interpBody] at h
        split at h
        · simp at h
        · simp at h
        next a2 hr =>
          have ha2 : goodList a2 := ih env tbl (.run stack a 0) (.toks a2) htbl ha hr
          split at h
          · simp at h
          · simp at h
          next rs h2 =>
            have hrs : ∀ x ∈ rs, goodList x :=
              ih env tbl (.pre stack rest) (.argl rs) htbl hrest h2
            simp only [Except.ok.injEq] at h
            rw [← h]
            intro x hx
            rcases List.mem_cons.1 hx with rfl | hx2
            · exact goodList_arg_ws_fix a2 ha2
            · exact hrs x hx2

/-- C2, counterexample: a bare `##` in the input stream is not an identifier,
so the scanner of `expand` steps over it and it remains in `L` — under the
empty macro table, `expand([##]) = [##]`. -/
theorem C2_counterexample :
    expand env0 ([] : Table) 3 [] [ppTok] = .ok [ppTok] ∧
    ppTok.tok = TokType.TOKEN_PASTE := ⟨rfl, rfl⟩

/-- C2, amended: if `L` contains no `##` and no `PARAM` token, and no stored
replacement list contains `##`, then after a successful `expand(L)` no `##`
or `PARAM` token remains anywhere in the result. -/
theorem C2_amended :
    ∀ env tbl f stack list out,
      tblPasteFree tbl → goodList list →
      expand env tbl f stack list = .ok out →
      ∀ t ∈ out, t.tok ≠ TokType.TOKEN_PASTE ∧ t.tok ≠ TokType.PARAM := by
  intro env tbl f stack list out htbl hlist h
  simp only [expand] at h
  split at h
  · simp at h
  next l hrun =>
    simp only [Except.ok.injEq] at h
    have := interp_good f env tbl (.run stack list 0) (.toks l) htbl hlist hrun
    intro t ht
    rw [← h] at ht
    have := this t ht
    simpa [goodTok] using this
  · simp at h

/-- C2, witness: the amended theorem applied to `#define A b` and input `[A]`,
specialised to the single token of the result. -/
theorem C2_witness :
    (idTok ("b")).tok ≠ TokType.TOKEN_PASTE ∧ (idTok ("b")).tok ≠ TokType.PARAM :=
  C2_amended env0 tblA 5 [] [idTok ("A")] [idTok ("b")]
    (by show ∀ m ∈ tblA, ∀ t ∈ m.replacement, t.tok ≠ TokType.TOKEN_PASTE
        decide)
    (by show ∀ t ∈ [idTok ("A")], goodTok t = true
        decide) rfl
    (idTok ("b")) (List.mem_singleton_self _)

end Lacc